import Mathlib

/-
Verification of the concurrency core of the more-infra/base library.

Each Go component is shallowly embedded as a Lean transition system:
the fields of the Go structs that the verified claims depend on become
fields of a Lean structure, every operation of the component becomes
either a pure function on that structure (when the Go method body runs
under the component's mutex and is therefore atomic) or a labelled step
relation (when the behaviour arises from the interleaving of several
goroutines).  Go channels are modelled by their buffer contents
(a list) together with the number of receivers currently parked on the
channel; a non-blocking send succeeds exactly when a receiver is parked
or the buffer has room, which is the Go rendezvous semantics.

Items are identified by the natural number order in which the operation
under scrutiny accepted them, so ordering claims become statements about
lists of naturals.
-/

namespace QueueM

/-- Overflow policy of queue.Buffer (queue/queue.go: PolicyDrop, PolicyRemove,
PolicyClear). -/
inductive Policy where
  | drop
  | remove
  | clear
  deriving DecidableEq, Repr

/-- Result values of Buffer.Push (queue/queue.go: PushToChan, PushToQueue,
PushToQueueReplace, PushDropped). -/
inductive PushResult where
  | toChan
  | toQueue
  | toQueueReplace
  | dropped
  deriving DecidableEq, Repr

/-- Construction-time options of queue.Buffer: channel capacity, soft queue
capacity (0 means unlimited) and the overflow policy. -/
structure Config where
  chCapacity : Nat
  queueCapacity : Nat
  policy : Policy
  deriving DecidableEq, Repr

/-- State of one queue.Buffer together with the observation ghosts.

queue, buffering and closed are the fields of the Go struct.  chBuf is the
buffer of the delivery channel b.ch and recvWait the number of consumers
parked in a receive on it.  held is the element the background drainer
goroutine has popped from the queue but not yet sent to the channel
(local variable e of Buffer.running).  delivered records, in order, the
items consumers have received; droppedL records the items rejected or
evicted; nextIdx numbers the Push calls. -/
structure State where
  queue : List Nat
  chBuf : List Nat
  recvWait : Nat
  buffering : Bool
  held : Option Nat
  closed : Bool
  delivered : List Nat
  droppedL : List Nat
  nextIdx : Nat
  deriving DecidableEq, Repr

def initState : State :=
  { queue := [], chBuf := [], recvWait := 0, buffering := false,
    held := none, closed := false, delivered := [], droppedL := [],
    nextIdx := 0 }

/-- A non-blocking send on the Go channel succeeds when a receiver is
parked on it or the channel buffer has a free slot. -/
def chSendReady (cfg : Config) (s : State) : Bool :=
  decide (0 < s.recvWait) || decide (s.chBuf.length < cfg.chCapacity)

/-- Effect of a successful channel send: with a parked receiver the item is
handed over directly (the receiver can only be parked when the buffer is
empty), otherwise it is appended to the channel buffer. -/
def chSend (s : State) (x : Nat) : State :=
  if 0 < s.recvWait then
    { s with delivered := s.delivered ++ [x], recvWait := s.recvWait - 1 }
  else
    { s with chBuf := s.chBuf ++ [x] }

/-- The spawn of the drainer goroutine at the end of Buffer.Push: when
buffering is not set it is set and Buffer.running is started. -/
def spawnDrainer (s : State) : State :=
  if s.buffering then s else { s with buffering := true }

/-- Buffer.Push (queue/queue.go lines 102-144), one atomic step: the whole
body runs under b.mu.  The closed check returns PushDropped; when the
drainer is idle and the queue empty a non-blocking channel send is tried
(PushToChan); otherwise the item goes to the queue, applying the overflow
policy when the soft capacity is reached exactly.  The dependency
github.com/eapache/queue is a FIFO queue: Add appends at the back,
Remove pops the front. -/
def pushStep (cfg : Config) (s : State) : PushResult × State :=
  let x := s.nextIdx
  if s.closed then
    (PushResult.dropped,
      { s with droppedL := s.droppedL ++ [x], nextIdx := x + 1 })
  else if !s.buffering && s.queue.isEmpty && chSendReady cfg s then
    (PushResult.toChan, { chSend s x with nextIdx := x + 1 })
  else if cfg.queueCapacity ≠ 0 ∧ s.queue.length = cfg.queueCapacity then
    match cfg.policy with
    | Policy.drop =>
        (PushResult.dropped,
          { s with droppedL := s.droppedL ++ [x], nextIdx := x + 1 })
    | Policy.remove =>
        (PushResult.toQueueReplace,
          spawnDrainer
            { s with queue := s.queue.tail ++ [x],
                     droppedL := s.droppedL ++ s.queue.take 1,
                     nextIdx := x + 1 })
    | Policy.clear =>
        (PushResult.toQueueReplace,
          spawnDrainer
            { s with queue := [x],
                     droppedL := s.droppedL ++ s.queue,
                     nextIdx := x + 1 })
  else
    (PushResult.toQueue,
      spawnDrainer { s with queue := s.queue ++ [x], nextIdx := x + 1 })

/-- Labels of buffer steps: a Push with its returned result, or an internal
move of the drainer or a consumer. -/
inductive Label where
  | push (r : PushResult)
  | tau
  deriving DecidableEq, Repr

/-- Interleaving semantics of one Buffer with any number of producers, the
drainer goroutine of Buffer.running, and consumers of Buffer.Channel().

drainPop is the pop under b.mu at either pop site of Buffer.running;
drainIdleExit is the branch that clears buffering and exits when the
queue is still empty after the idle wait; drainSend is the blocking send
of the popped element to the channel; recvTake and recvPark are a
consumer receiving from, or parking on, the delivery channel. -/
inductive Step (cfg : Config) : State → Label → State → Prop where
  | push (s : State) :
      Step cfg s (Label.push (pushStep cfg s).fst) (pushStep cfg s).snd
  | drainPop (s : State) (x : Nat) (t : List Nat) :
      s.buffering = true → s.held = none → s.queue = x :: t →
      Step cfg s Label.tau { s with queue := t, held := some x }
  | drainIdleExit (s : State) :
      s.buffering = true → s.held = none → s.queue = [] →
      Step cfg s Label.tau { s with buffering := false }
  | drainSend (s : State) (x : Nat) :
      s.held = some x → chSendReady cfg s = true →
      Step cfg s Label.tau { chSend s x with held := none }
  | recvTake (s : State) (x : Nat) (t : List Nat) :
      s.chBuf = x :: t →
      Step cfg s Label.tau
        { s with chBuf := t, delivered := s.delivered ++ [x] }
  | recvPark (s : State) :
      s.chBuf = [] → s.closed = false →
      Step cfg s Label.tau { s with recvWait := s.recvWait + 1 }

/-- Reachable buffer states, starting from a freshly constructed Buffer. -/
inductive Reach (cfg : Config) : State → Prop where
  | init : Reach cfg initState
  | step {s s' : State} {l : Label} :
      Reach cfg s → Step cfg s l s' → Reach cfg s'

/-- The logical contents of the buffer pipeline, in delivery order: what
consumers have already received, then the channel buffer, then the item
held by the drainer, then the overflow queue. -/
def contents (s : State) : List Nat :=
  s.delivered ++ s.chBuf ++ s.held.toList ++ s.queue

/-- Invariant of reachable buffer states.  The pipeline contents are a
sublist of the acceptance order 0..nextIdx-1 (so every stage preserves
acceptance order and never duplicates or invents items); every accepted
index is still in the pipeline or was dropped, and never both; the
overflow queue and the drainer's held item exist only while buffering is
set; a receiver is parked only while the channel buffer is empty. -/
structure Inv (s : State) : Prop where
  subl : List.Sublist (contents s) (List.range s.nextIdx)
  cover : ∀ i, i < s.nextIdx → i ∈ contents s ∨ i ∈ s.droppedL
  excl : ∀ i, i ∈ s.droppedL → i ∉ contents s
  dropLt : ∀ i, i ∈ s.droppedL → i < s.nextIdx
  qBuf : s.queue ≠ [] → s.buffering = true
  hBuf : s.held ≠ none → s.buffering = true
  rw0 : 0 < s.recvWait → s.chBuf = []
  ncl : s.closed = false

/-- Configuration used for the concrete buffer traces: channel capacity 1,
unlimited queue, drop policy. -/
def cfgW : Config := { chCapacity := 1, queueCapacity := 0, policy := Policy.drop }

/-- Configuration with channel capacity 0, the boundary case of claim C8. -/
def cfgZ : Config := { chCapacity := 0, queueCapacity := 0, policy := Policy.drop }

/-- Buffer state with one consumer parked on the (capacity 0) channel. -/
def sParkZ : State := { initState with recvWait := 1 }

/-- Fully drained buffer state after the two-item trace used as witness:
both accepted items delivered in order. -/
def sDrainedW : State :=
  { queue := [], chBuf := [], recvWait := 0, buffering := false,
    held := none, closed := false, delivered := [0, 1], droppedL := [],
    nextIdx := 2 }

end QueueM

namespace StatusM

/-- The five states of status.Controller (status/status.go lines 191-197). -/
inductive St where
  | ready
  | starting
  | running
  | stopping
  | stopped
  deriving DecidableEq, Repr

/-- State of one status.Controller: the status field, the down flag, and the
number of readers currently holding the shared locks taken by a successful
KeepRunning (the rw and stop read locks are taken and released together). -/
structure CState where
  status : St
  down : Bool
  readers : Nat
  deriving DecidableEq, Repr

def init : CState := { status := St.ready, down := false, readers := 0 }

/-- Completion events of the Controller methods.  A method call that is
blocked on a mutex has not completed yet and produces its event only once
the state allows it; T and F record the boolean result. -/
inductive Ev where
  | beginStartT
  | beginStartF
  | startedOk
  | startedReady
  | failedOk
  | failedReady
  | beginStopDown
  | beginStopT
  | beginStopF
  | stoppedOk
  | keepRunT
  | keepRunF
  | keepRunCtxT
  | keepRunCtxF
  | releaseOk
  deriving DecidableEq, Repr

/-- Atomic completion steps of the Controller methods (status/status.go).

Starting holds the rw writer lock while it checks and updates status, and
keeps it when returning true, so its completion needs readers = 0 and is
impossible while another writer (status starting or stopping) holds the
lock.  Stopping first takes the stop lock and sets down unconditionally
(beginStopDown, needing the stop read locks free), then acquires the rw
writer lock and checks for Running (beginStopT or beginStopF; down is
already true at that point).  Started, Failed and Stopped run in the
winner and release the writer lock; their panic branches have no event.
KeepRunning fails immediately when down is set, succeeds from Running
taking the read locks, fails from Ready or Stopped, and stays blocked
while a writer holds the lock; KeepRunningWithContext differs only in
that from Ready it can also keep waiting, so its false completion from
Ready corresponds to the context firing. -/
inductive CStep : CState → Ev → CState → Prop where
  | beginStartT (s : CState) :
      s.readers = 0 → s.status = St.ready →
      CStep s Ev.beginStartT { s with status := St.starting }
  | beginStartF (s : CState) :
      s.readers = 0 → (s.status = St.running ∨ s.status = St.stopped) →
      CStep s Ev.beginStartF s
  | startedOk (s : CState) :
      s.status = St.starting →
      CStep s Ev.startedOk { s with status := St.running }
  | startedReady (s : CState) :
      s.status = St.ready →
      CStep s Ev.startedReady { s with status := St.running }
  | failedOk (s : CState) :
      s.status = St.starting →
      CStep s Ev.failedOk { s with status := St.stopped }
  | failedReady (s : CState) :
      s.status = St.ready →
      CStep s Ev.failedReady { s with status := St.stopped }
  | beginStopDown (s : CState) :
      s.readers = 0 →
      CStep s Ev.beginStopDown { s with down := true }
  | beginStopT (s : CState) :
      s.readers = 0 → s.down = true → s.status = St.running →
      CStep s Ev.beginStopT { s with status := St.stopping }
  | beginStopF (s : CState) :
      s.readers = 0 → s.down = true →
      (s.status = St.ready ∨ s.status = St.stopped) →
      CStep s Ev.beginStopF s
  | stoppedOk (s : CState) :
      s.status = St.stopping →
      CStep s Ev.stoppedOk { s with status := St.stopped }
  | keepRunT (s : CState) :
      s.down = false → s.status = St.running →
      CStep s Ev.keepRunT { s with readers := s.readers + 1 }
  | keepRunF (s : CState) :
      (s.down = true ∨ s.status = St.ready ∨ s.status = St.stopped) →
      CStep s Ev.keepRunF s
  | keepRunCtxT (s : CState) :
      s.down = false → s.status = St.running →
      CStep s Ev.keepRunCtxT { s with readers := s.readers + 1 }
  | keepRunCtxF (s : CState) :
      (s.down = true ∨ s.status = St.ready ∨ s.status = St.stopped) →
      CStep s Ev.keepRunCtxF s
  | releaseOk (s : CState) :
      0 < s.readers → s.status = St.running →
      CStep s Ev.releaseOk { s with readers := s.readers - 1 }

/-- Event traces of one Controller instance under any interleaving of
concurrent callers. -/
inductive Trace : CState → List Ev → CState → Prop where
  | nil (s : CState) : Trace s [] s
  | cons {s1 s2 s3 : CState} {e : Ev} {evs : List Ev} :
      CStep s1 e s2 → Trace s2 evs s3 → Trace s1 (e :: evs) s3

end StatusM

namespace MCtxM

/-- State of one mcontext.MultipleContext over its child contexts
(mcontext/multiple_context.go).  fired has one flag per child context
(true once that context's Done channel is closed); listening is set by
Listen, disposed by Dispose (the quit of the runner); hit mirrors the
atomic hit value; doneFired is whether mc.cancel has run, which is what
closes the aggregate Done channel; firstFired is an observation ghost
recording the child that fired first. -/
structure MState where
  fired : List Bool
  listening : Bool
  disposed : Bool
  hit : Option Nat
  doneFired : Bool
  firstFired : Option Nat
  deriving DecidableEq, Repr

def initState (n : Nat) : MState :=
  { fired := List.replicate n false, listening := false, disposed := false,
    hit := none, doneFired := false, firstFired := none }

/-- Steps of the aggregator: a child context fires; Listen starts the
background goroutine; Dispose fires the runner's quit; the goroutine's
reflect.Select commits either to a fired child (storing it in hit, then
the deferred cancel fires the aggregate done) or to quit (firing done
with no hit).  reflect.Select may commit to any case that is ready, which
is the Go select semantics. -/
inductive MStep : MState → MState → Prop where
  | fire (s : MState) (i : Nat) :
      i < s.fired.length → s.fired.get? i ≠ some true →
      MStep s { s with fired := s.fired.set i true,
                       firstFired :=
                         if s.firstFired.isNone then some i else s.firstFired }
  | listen (s : MState) :
      s.listening = false →
      MStep s { s with listening := true }
  | dispose (s : MState) :
      MStep s { s with disposed := true }
  | selectExternal (s : MState) (i : Nat) :
      s.listening = true → s.doneFired = false → s.fired.get? i = some true →
      MStep s { s with hit := some i, doneFired := true }
  | selectQuit (s : MState) :
      s.listening = true → s.doneFired = false → s.disposed = true →
      MStep s { s with doneFired := true }

/-- Reachable aggregator states over n child contexts. -/
inductive Reach (n : Nat) : MState → Prop where
  | init : Reach n (initState n)
  | step {s s' : MState} : Reach n s → MStep s s' → Reach n s'

/-- MultipleContext.Err: the hit context's error when a hit is stored,
otherwise the aggregator's own context error, which is the canceled error
(code 1) once mc.cancel has run and nil (code 0) before.  errs gives each
child context's error code. -/
def mErr (errs : Nat → Nat) (s : MState) : Nat :=
  match s.hit with
  | some i => errs i
  | none => if s.doneFired then 1 else 0

/-- Final state of the two-source counterexample trace: both sources fired
before the listener's select committed, and the select chose source 1
although source 0 fired first. -/
def sLateHit : MState :=
  { fired := [true, true], listening := true, disposed := false,
    hit := some 1, doneFired := true, firstFired := some 0 }

/-- Final state of the single-source witness trace. -/
def sOneHit : MState :=
  { fired := [true], listening := true, disposed := false,
    hit := some 0, doneFired := true, firstFired := some 0 }

end MCtxM

namespace ReactorOrd

/-- The two submission bands of the reactor. -/
inductive Band where
  | pri
  | prim
  deriving DecidableEq, Repr

/-- One band's elastic buffer (queue.Buffer) as the reactor consumer
sees it: ch is the content of the delivery channel — whose length is
the only thing Reactor.running's post-task check reads — ovf is the
overflow stage (the self-defined queue together with the item the
drainer goroutine has popped and not yet sent), and buffering is the
drainer-alive flag.  The reactor constructs both of its buffers with
NewBuffer() defaults: channel capacity 128 and queueCapacity 0, so
Push never drops and has no policy branch. -/
structure BandBuf where
  ch : List Nat
  ovf : List Nat
  buffering : Bool
  deriving DecidableEq, Repr

def emptyBand : BandBuf :=
  { ch := [], ovf := [], buffering := false }

/-- Buffer.Push with queueCapacity 0 (the reactor's configuration): when
the drainer is idle and the overflow is empty, a non-blocking channel
send is tried, which succeeds exactly when the channel is below its
capacity; otherwise the item joins the overflow and the drainer runs. -/
def bandPush (cap : Nat) (b : BandBuf) (x : Nat) : BandBuf :=
  if !b.buffering && b.ovf.isEmpty && decide (b.ch.length < cap) then
    { b with ch := b.ch ++ [x] }
  else
    { b with ovf := b.ovf ++ [x], buffering := true }

/-- State of the reactor consumer loop (Reactor.running) together with
its two feeding elastic buffers and the observation ghosts.  priB and
primB are the priority and primary buffers; bands records the band of
each accepted submission in acceptance order; suppress is whether
chQueue was set to nil at the end of the previous task (the primary
case of the select is disabled for the next round); running is the task
the consumer is currently executing inline; obs is the dispatch
order. -/
structure RState where
  priB : BandBuf
  primB : BandBuf
  bands : List Band
  suppress : Bool
  running : Option Nat
  obs : List Nat
  deriving DecidableEq, Repr

def init : RState :=
  { priB := emptyBand, primB := emptyBand, bands := [],
    suppress := false, running := none, obs := [] }

inductive RLabel where
  | pushPri
  | pushPrim
  | drain
  | start (i : Nat)
  | finish
  deriving DecidableEq, Repr

/-- Steps of the reactor consumer (scheduler/worker.go, Reactor.running),
of producers calling Push and PushPriority, and of the two buffers'
drainer goroutines (queue.Buffer.running).  A drain step moves the head
of a band's overflow stage into its delivery channel once there is room
(the drainer's blocking send completing), and an idle drainer exits
clearing buffering when its overflow is empty.  A start step is the
select committing to a ready channel case; the primary case can only
fire when it is not suppressed, while both cases being ready otherwise
leaves the select free to pick either.  finish is the end of the inline
task run, after which the loop reads len(chPriorityQueue) — the length
of the priority delivery channel only, not of the whole elastic buffer:
when it is non-zero, chQueue is set to nil for the next round
(suppress), otherwise it is restored. -/
inductive RStep (cap : Nat) : RState → RLabel → RState → Prop where
  | pushPri (s : RState) :
      RStep cap s RLabel.pushPri
        { s with priB := bandPush cap s.priB s.bands.length,
                 bands := s.bands ++ [Band.pri] }
  | pushPrim (s : RState) :
      RStep cap s RLabel.pushPrim
        { s with primB := bandPush cap s.primB s.bands.length,
                 bands := s.bands ++ [Band.prim] }
  | drainPri (s : RState) (x : Nat) (t : List Nat) :
      s.priB.buffering = true → s.priB.ovf = x :: t →
      s.priB.ch.length < cap →
      RStep cap s RLabel.drain
        { s with priB :=
            ({ ch := s.priB.ch ++ [x], ovf := t, buffering := true }) }
  | drainPrim (s : RState) (x : Nat) (t : List Nat) :
      s.primB.buffering = true → s.primB.ovf = x :: t →
      s.primB.ch.length < cap →
      RStep cap s RLabel.drain
        { s with primB :=
            ({ ch := s.primB.ch ++ [x], ovf := t, buffering := true }) }
  | idlePri (s : RState) :
      s.priB.buffering = true → s.priB.ovf = [] →
      RStep cap s RLabel.drain
        { s with priB := ({ s.priB with buffering := false }) }
  | idlePrim (s : RState) :
      s.primB.buffering = true → s.primB.ovf = [] →
      RStep cap s RLabel.drain
        { s with primB := ({ s.primB with buffering := false }) }
  | startPri (s : RState) (x : Nat) (t : List Nat) :
      s.running = none → s.priB.ch = x :: t →
      RStep cap s (RLabel.start x)
        { s with priB := ({ s.priB with ch := t }),
                 running := some x, obs := s.obs ++ [x] }
  | startPrim (s : RState) (x : Nat) (t : List Nat) :
      s.running = none → s.suppress = false → s.primB.ch = x :: t →
      RStep cap s (RLabel.start x)
        { s with primB := ({ s.primB with ch := t }),
                 running := some x, obs := s.obs ++ [x] }
  | finish (s : RState) (x : Nat) :
      s.running = some x →
      RStep cap s RLabel.finish
        { s with running := none, suppress := !s.priB.ch.isEmpty }

/-- Reachable reactor states from a freshly started reactor whose two
buffers have delivery channels of capacity cap (128 in the program). -/
inductive Reach (cap : Nat) : RState → Prop where
  | init : Reach cap init
  | step {s s' : RState} {l : RLabel} :
      Reach cap s → RStep cap s l s' → Reach cap s'

/-- Whether id i belongs to band b according to the band record bl. -/
def bandF (bl : List Band) (b : Band) : Nat → Bool :=
  fun i => decide (bl.get? i = some b)

/-- The ids of band b in a band record, in acceptance order. -/
def bandIdsL (bl : List Band) (b : Band) : List Nat :=
  (List.range bl.length).filter (bandF bl b)

/-- The ids of band b in acceptance order. -/
def bandIds (s : RState) (b : Band) : List Nat :=
  bandIdsL s.bands b

/-- The dispatch observations restricted to band b. -/
def obsB (s : RState) (b : Band) : List Nat :=
  s.obs.filter (bandF s.bands b)

/-- The delivery channel of band b. -/
def chOf (s : RState) (b : Band) : List Nat :=
  match b with
  | Band.pri => s.priB.ch
  | Band.prim => s.primB.ch

/-- The overflow stage of band b. -/
def ovfOf (s : RState) (b : Band) : List Nat :=
  match b with
  | Band.pri => s.priB.ovf
  | Band.prim => s.primB.ovf

/-- The pending contents of band b: the delivery channel followed by the
overflow stage. -/
def pendOf (s : RState) (b : Band) : List Nat :=
  chOf s b ++ ovfOf s b

/-- State reached by pushing one priority and one primary task (both
take Push's fast path into the delivery channels): both channels
non-empty, no suppression armed. -/
def sBothReady : RState :=
  { priB := { ch := [0], ovf := [], buffering := false },
    primB := { ch := [1], ovf := [], buffering := false },
    bands := [Band.pri, Band.prim],
    suppress := false, running := none, obs := [] }

/-- State after the select picks the primary task although the priority
delivery channel is non-empty. -/
def sPrimTaken : RState :=
  { priB := { ch := [0], ovf := [], buffering := false },
    primB := { ch := [], ovf := [], buffering := false },
    bands := [Band.pri, Band.prim],
    suppress := false, running := some 1, obs := [1] }

/-- State (at channel capacity 1) where priority submission 1 sits in
the overflow stage of the priority buffer while its delivery channel is
empty, a task has just finished without arming suppression, and primary
submission 2 is ready in the primary delivery channel. -/
def sOvfPend : RState :=
  { priB := { ch := [], ovf := [1], buffering := true },
    primB := { ch := [2], ovf := [], buffering := false },
    bands := [Band.pri, Band.pri, Band.prim],
    suppress := false, running := none, obs := [0] }

/-- State after the select dispatches primary submission 2 ahead of the
priority submission 1 still in transit through the overflow stage. -/
def sOvfMissTaken : RState :=
  { priB := { ch := [], ovf := [1], buffering := true },
    primB := { ch := [], ovf := [], buffering := false },
    bands := [Band.pri, Band.pri, Band.prim],
    suppress := false, running := some 2, obs := [0, 2] }

end ReactorOrd

namespace ReactorLife

/-- Lifecycle status of one reactorTask: still queued, handler ran (run
called wg.Done), or canceled at shutdown with the typed ErrHandlerCanceled
error (cancel stored the error and called wg.Done). -/
inductive TStatus where
  | pending
  | ran
  | canceledHC
  deriving DecidableEq, Repr

/-- Phases of the reactor lifecycle during Reactor.Stop: running; cancel
fired and Stopping succeeded so submissions are rejected (stop1); the
consumer goroutine observed quit and exited, runner.CloseWait returned
(stop2); the priority buffer was disposed and its remaining tasks
canceled (stop3); the primary buffer likewise, Stop returned (stopFin). -/
inductive Phase where
  | run
  | stop1
  | stop2
  | stop3
  | stopFin
  deriving DecidableEq, Repr

/-- State of the reactor lifecycle: the two task queues (ids), the status of
every accepted task in acceptance order, the task the consumer is
executing, the dispatch observations, and the stop phase. -/
structure LState where
  priQ : List Nat
  primQ : List Nat
  tasks : List TStatus
  running : Option Nat
  obs : List Nat
  phase : Phase
  deriving DecidableEq, Repr

def init : LState :=
  { priQ := [], primQ := [], tasks := [], running := none, obs := [],
    phase := Phase.run }

/-- Modelled from the spec: the queue package used by the reactor has a
Dispose that returns the submissions not yet delivered to the consumer
(this newer queue version is not among the sources; the spec specifies
that Stop drains both queues, marking each remaining task canceled).
cancelAll marks every task in ids canceled. -/
def cancelAll (tasks : List TStatus) (ids : List Nat) : List TStatus :=
  ids.foldl (fun ts i => ts.set i TStatus.canceledHC) tasks

/-- Steps of the reactor lifecycle.  Pushes are accepted only while the
controller admits them (phase run; Push enqueues before ReleaseRunning,
so no push completes after Stopping succeeds).  The consumer can keep
dispatching between the cancel and its own exit (stop1), because the
select picks among all ready cases.  consumerExit is runner.CloseWait
returning, which requires the consumer to be between tasks.  The two
drain steps are the Dispose loops of Reactor.Stop, in source order:
priority first, then primary. -/
inductive LStep : LState → LState → Prop where
  | pushPri (s : LState) :
      s.phase = Phase.run →
      LStep s { s with priQ := s.priQ ++ [s.tasks.length],
                       tasks := s.tasks ++ [TStatus.pending] }
  | pushPrim (s : LState) :
      s.phase = Phase.run →
      LStep s { s with primQ := s.primQ ++ [s.tasks.length],
                       tasks := s.tasks ++ [TStatus.pending] }
  | startPri (s : LState) (x : Nat) (t : List Nat) :
      s.running = none → (s.phase = Phase.run ∨ s.phase = Phase.stop1) →
      s.priQ = x :: t →
      LStep s { s with priQ := t, running := some x, obs := s.obs ++ [x] }
  | startPrim (s : LState) (x : Nat) (t : List Nat) :
      s.running = none → (s.phase = Phase.run ∨ s.phase = Phase.stop1) →
      s.primQ = x :: t →
      LStep s { s with primQ := t, running := some x, obs := s.obs ++ [x] }
  | runEnd (s : LState) (x : Nat) :
      s.running = some x →
      LStep s { s with running := none, tasks := s.tasks.set x TStatus.ran }
  | stopBegin (s : LState) :
      s.phase = Phase.run →
      LStep s { s with phase := Phase.stop1 }
  | consumerExit (s : LState) :
      s.phase = Phase.stop1 → s.running = none →
      LStep s { s with phase := Phase.stop2 }
  | drainPri (s : LState) :
      s.phase = Phase.stop2 →
      LStep s { s with tasks := cancelAll s.tasks s.priQ, priQ := [],
                       phase := Phase.stop3 }
  | drainPrim (s : LState) :
      s.phase = Phase.stop3 →
      LStep s { s with tasks := cancelAll s.tasks s.primQ, primQ := [],
                       phase := Phase.stopFin }

/-- Reachable lifecycle states from a started reactor. -/
inductive Reach : LState → Prop where
  | init : Reach init
  | step {s s' : LState} : Reach s → LStep s s' → Reach s'

/-- Final state of the witness trace: one task ran, one was canceled at
shutdown. -/
def sStoppedW : LState :=
  { priQ := [], primQ := [], tasks := [TStatus.ran, TStatus.canceledHC],
    running := none, obs := [0], phase := Phase.stopFin }

/-- Invariant of reachable reactor lifecycle states: all recorded ids are
in range; every id is in at most one place among the two queues and the
consumer; a task is pending exactly while it is queued or being run; the
dispatch observations are exactly the tasks that ran or are running, each
observed at most once; once the consumer has exited the queues drain in
order and nothing runs. -/
structure LInv (s : LState) : Prop where
  obBound : ∀ i ∈ s.obs, i < s.tasks.length
  priBound : ∀ i ∈ s.priQ, i < s.tasks.length
  primBound : ∀ i ∈ s.primQ, i < s.tasks.length
  runBound : ∀ x, s.running = some x → x < s.tasks.length
  uniq : ∀ i, s.priQ.count i + s.primQ.count i +
    (if s.running = some i then 1 else 0) ≤ 1
  pendingIff : ∀ i, i < s.tasks.length →
    (s.tasks.get? i = some TStatus.pending ↔
      (i ∈ s.priQ ∨ i ∈ s.primQ ∨ s.running = some i))
  obsIff : ∀ i, i ∈ s.obs ↔
    (s.tasks.get? i = some TStatus.ran ∨ s.running = some i)
  obsNodup : s.obs.Nodup
  runNone : (s.phase = Phase.stop2 ∨ s.phase = Phase.stop3 ∨
    s.phase = Phase.stopFin) → s.running = none
  priEmpty : (s.phase = Phase.stop3 ∨ s.phase = Phase.stopFin) → s.priQ = []
  primEmpty : s.phase = Phase.stopFin → s.primQ = []

end ReactorLife

namespace SchedM

/-- Entity status values (scheduler/worker.go lines 252-270). -/
inductive EStatus where
  | waiting
  | running
  | canceling
  | done
  | canceled
  | aborted
  deriving DecidableEq, Repr

/-- State of one scheduler Entity together with where the scheduler keeps
it: status is Result.Status; delayed is whether it was pushed with a
nonzero delay; inDelayMgr is membership of the delay manager's item set;
registered is membership of the scheduler's element registry s.entities;
enqueued is being in the worker manager's input buffer or dispatch
pipeline; abandonCnt counts executor.Abandon calls; doDone is whether
executor.Do ran and returned. -/
structure Ent where
  status : EStatus
  delayed : Bool
  inDelayMgr : Bool
  registered : Bool
  enqueued : Bool
  abandonCnt : Nat
  doDone : Bool
  deriving DecidableEq, Repr

/-- Entity as created by Scheduler.Push without delay: Scheduler.schedule
registers it in the element registry and hands it to the worker manager. -/
def entNow : Ent :=
  { status := EStatus.waiting, delayed := false, inDelayMgr := false,
    registered := true, enqueued := true, abandonCnt := 0, doDone := false }

/-- Entity as created by Scheduler.Push with a nonzero delay: it is handed
to the delay manager only and not registered anywhere else. -/
def entDelay : Ent :=
  { status := EStatus.waiting, delayed := true, inDelayMgr := true,
    registered := false, enqueued := false, abandonCnt := 0, doDone := false }

/-- Phases of the scheduler lifecycle during Scheduler.Stop, in the order of
the statements of Stop: running; Stopping succeeded so pushes are
rejected (s1); delayMgr.shutdown returned, no pending delay item can
dispatch any more (s2); workerMgr's context was canceled (s2b);
workerMgr.shutdown returned, every worker finished its current entity and
no further pickup happens (s3, where the snapshot is taken and every
registered entity is canceled); Stop waited on every snapshot entity's
Done and returned (stopFin). -/
inductive Phase where
  | ready
  | run
  | s1
  | s2
  | s2b
  | s3
  | stopFin
  deriving DecidableEq, Repr

/-- Scheduler state: all entities ever accepted by Push, in push order, and
the lifecycle phase. -/
structure SState where
  ents : List Ent
  phase : Phase
  deriving DecidableEq, Repr

def init : SState := { ents := [], phase := Phase.ready }

/-- Phases in which a worker can still receive an entity: until
workerMgr.shutdown has returned. -/
def pickupPhase (p : Phase) : Bool :=
  p = Phase.run || p = Phase.s1 || p = Phase.s2 || p = Phase.s2b

/-- Whether the worker manager's context (the parent of every entity's
running context) has been canceled. -/
def wmCancelled (p : Phase) : Bool :=
  p = Phase.s2b || p = Phase.s3 || p = Phase.stopFin

/-- Terminal entity statuses; Entity.dispose, which fires the Done channel,
runs exactly when a terminal status is assigned. -/
def terminalSt (st : EStatus) : Bool :=
  st = EStatus.done || st = EStatus.canceled || st = EStatus.aborted

/-- Whether the entity's Done channel has fired: dispose (which cancels the
entity's own context) is called exactly at the transitions into the
terminal statuses. -/
def doneSignalFired (e : Ent) : Bool :=
  terminalSt e.status

/-- Steps of the scheduler (scheduler/scheduler.go and worker.go; the
delay manager of src/unnamed/part_008).

Cancellation is the one performed by Scheduler.Stop on its snapshot
(Entity.Cancel from Stop); the runner semantics of the manager shutdowns
(CloseWait fires quit and waits for the goroutine) are modelled from the
spec, because the runner package source is not among the sources.
delayExpire is the delay manager dispatching an expired item
(delayItem.dispose calls entity.dispatch, which registers the entity and
hands it to the worker manager); it is possible until delayMgr.shutdown
has returned.  pickup and pickupSkip are Entity.onExecute in a worker:
the entity runs only if it is still waiting.  doReturn is Do returning:
the final status is Aborted when the running context was done (its own
cancel, or the worker manager's context canceled), Done otherwise. -/
inductive SStep : SState → SState → Prop where
  | start (s : SState) :
      s.phase = Phase.ready →
      SStep s { s with phase := Phase.run }
  | pushNow (s : SState) :
      s.phase = Phase.run →
      SStep s { s with ents := s.ents ++ [entNow] }
  | pushDelay (s : SState) :
      s.phase = Phase.run →
      SStep s { s with ents := s.ents ++ [entDelay] }
  | delayExpire (s : SState) (i : Nat) (e : Ent) :
      (s.phase = Phase.run ∨ s.phase = Phase.s1) →
      s.ents.get? i = some e → e.inDelayMgr = true →
      SStep s { s with
        ents := s.ents.set i
          ({ e with inDelayMgr := false, registered := true, enqueued := true }) }
  | pickup (s : SState) (i : Nat) (e : Ent) :
      pickupPhase s.phase = true →
      s.ents.get? i = some e → e.enqueued = true → e.status = EStatus.waiting →
      SStep s { s with
        ents := s.ents.set i
          ({ e with enqueued := false, status := EStatus.running }) }
  | pickupSkip (s : SState) (i : Nat) (e : Ent) :
      pickupPhase s.phase = true →
      s.ents.get? i = some e → e.enqueued = true → e.status ≠ EStatus.waiting →
      SStep s { s with ents := s.ents.set i ({ e with enqueued := false }) }
  | doReturn (s : SState) (i : Nat) (e : Ent) :
      s.ents.get? i = some e →
      (e.status = EStatus.running ∨ e.status = EStatus.canceling) →
      SStep s { s with
        ents := s.ents.set i
          ({ e with
             status :=
               if e.status = EStatus.canceling ∨ wmCancelled s.phase = true
               then EStatus.aborted else EStatus.done,
             doDone := true }) }
  | stopBegin (s : SState) :
      s.phase = Phase.run →
      SStep s { s with phase := Phase.s1 }
  | delayShut (s : SState) :
      s.phase = Phase.s1 →
      SStep s { s with phase := Phase.s2 }
  | wmCancel (s : SState) :
      s.phase = Phase.s2 →
      SStep s { s with phase := Phase.s2b }
  | wmDrained (s : SState) :
      s.phase = Phase.s2b →
      (∀ e ∈ s.ents, e.status ≠ EStatus.running ∧ e.status ≠ EStatus.canceling) →
      SStep s { s with phase := Phase.s3 }
  | stopCancel (s : SState) (i : Nat) (e : Ent) :
      s.phase = Phase.s3 →
      s.ents.get? i = some e → e.registered = true → e.status = EStatus.waiting →
      SStep s { s with
        ents := s.ents.set i
          ({ e with status := EStatus.canceled, abandonCnt := e.abandonCnt + 1 }) }
  | stopFinish (s : SState) :
      s.phase = Phase.s3 →
      (∀ e ∈ s.ents, e.registered = true → terminalSt e.status = true) →
      SStep s { s with phase := Phase.stopFin }

/-- Reachable scheduler states from a freshly constructed scheduler. -/
inductive Reach : SState → Prop where
  | init : Reach init
  | step {s s' : SState} : Reach s → SStep s s' → Reach s'

/-- State after Stop has returned on a scheduler holding one delayed entity
whose delay never expired: the entity is still pristine. -/
def sDroppedDelay : SState := { ents := [entDelay], phase := Phase.stopFin }

/-- Entity after a worker picked it up (Entity.onExecute began). -/
def entRun : Ent :=
  { entNow with enqueued := false, status := EStatus.running }

/-- Entity after its executor's Do returned normally. -/
def entDone : Ent :=
  { entNow with enqueued := false, status := EStatus.done, doDone := true }

/-- Entity canceled by Stop before any execution attempt. -/
def entCan : Ent :=
  { entNow with status := EStatus.canceled, abandonCnt := 1 }

/-- Invariant of reachable scheduler states: Abandon is called at most
once and exactly for entities canceled before running; Do ran and
returned exactly for entities that finished or aborted; an entity pending
in the delay manager is untouched (not registered, not enqueued, still
waiting, no Abandon, no Do); enqueued or running entities are registered;
after Stop has returned every registered entity is terminal. -/
structure SInv (s : SState) : Prop where
  aband : ∀ e ∈ s.ents, e.abandonCnt ≤ 1 ∧
    (e.abandonCnt = 1 ↔ e.status = EStatus.canceled)
  dod : ∀ e ∈ s.ents, e.doDone = true ↔
    (e.status = EStatus.done ∨ e.status = EStatus.aborted)
  delayPure : ∀ e ∈ s.ents, e.inDelayMgr = true →
    e.status = EStatus.waiting ∧ e.registered = false ∧
    e.enqueued = false ∧ e.abandonCnt = 0 ∧ e.doDone = false
  enqReg : ∀ e ∈ s.ents, e.enqueued = true → e.registered = true
  runReg : ∀ e ∈ s.ents,
    (e.status = EStatus.running ∨ e.status = EStatus.canceling) →
    e.registered = true
  finTerm : s.phase = Phase.stopFin → ∀ e ∈ s.ents,
    e.registered = true → terminalSt e.status = true

/-- State after a full graceful stop with one executed and one canceled
entity, used as witness. -/
def sStoppedW : SState :=
  { ents :=
      [{ status := EStatus.done, delayed := false, inDelayMgr := false,
         registered := true, enqueued := false, abandonCnt := 0,
         doDone := true },
       { status := EStatus.canceled, delayed := false, inDelayMgr := false,
         registered := true, enqueued := true, abandonCnt := 1,
         doDone := false }],
    phase := Phase.stopFin }

end SchedM

/-
Theorems.  Helper lemmas come first in each namespace, then the claim
theorems, each stated over the definitions above.
-/

namespace QueueM

theorem spawnDrainer_queue (s : State) : (spawnDrainer s).queue = s.queue := by
  unfold spawnDrainer; split <;> rfl

theorem spawnDrainer_chBuf (s : State) : (spawnDrainer s).chBuf = s.chBuf := by
  unfold spawnDrainer; split <;> rfl

theorem spawnDrainer_delivered (s : State) :
    (spawnDrainer s).delivered = s.delivered := by
  unfold spawnDrainer; split <;> rfl

theorem spawnDrainer_droppedL (s : State) :
    (spawnDrainer s).droppedL = s.droppedL := by
  unfold spawnDrainer; split <;> rfl

theorem spawnDrainer_recvWait (s : State) :
    (spawnDrainer s).recvWait = s.recvWait := by
  unfold spawnDrainer; split <;> rfl

theorem spawnDrainer_held (s : State) : (spawnDrainer s).held = s.held := by
  unfold spawnDrainer; split <;> rfl

theorem spawnDrainer_nextIdx (s : State) :
    (spawnDrainer s).nextIdx = s.nextIdx := by
  unfold spawnDrainer; split <;> rfl

theorem spawnDrainer_closed (s : State) :
    (spawnDrainer s).closed = s.closed := by
  unfold spawnDrainer; split <;> rfl

/-- Claim C5: for every elastic buffer whose overflow queue holds exactly
the configured (nonzero) soft capacity of items, a submission that
reaches the overflow step follows the configured policy: Drop returns
PushDropped and changes neither the overflow queue nor the channel nor
the delivered sequence; Remove discards the oldest overflow item and
appends the new one, returning PushToQueueReplace; Clear discards the
whole overflow and appends the new item alone, returning
PushToQueueReplace. -/
theorem c5_overflow_policy (cfg : Config) (s : State)
    (hcap : cfg.queueCapacity ≠ 0)
    (hfull : s.queue.length = cfg.queueCapacity)
    (hcl : s.closed = false) :
    (cfg.policy = Policy.drop →
      (pushStep cfg s).fst = PushResult.dropped ∧
      (pushStep cfg s).snd.queue = s.queue ∧
      (pushStep cfg s).snd.chBuf = s.chBuf ∧
      (pushStep cfg s).snd.delivered = s.delivered ∧
      (pushStep cfg s).snd.droppedL = s.droppedL ++ [s.nextIdx]) ∧
    (cfg.policy = Policy.remove →
      (pushStep cfg s).fst = PushResult.toQueueReplace ∧
      (pushStep cfg s).snd.queue = s.queue.tail ++ [s.nextIdx] ∧
      (pushStep cfg s).snd.chBuf = s.chBuf ∧
      (pushStep cfg s).snd.delivered = s.delivered ∧
      (pushStep cfg s).snd.droppedL = s.droppedL ++ s.queue.take 1) ∧
    (cfg.policy = Policy.clear →
      (pushStep cfg s).fst = PushResult.toQueueReplace ∧
      (pushStep cfg s).snd.queue = [s.nextIdx] ∧
      (pushStep cfg s).snd.chBuf = s.chBuf ∧
      (pushStep cfg s).snd.delivered = s.delivered ∧
      (pushStep cfg s).snd.droppedL = s.droppedL ++ s.queue) := by
  have hq : s.queue ≠ [] := by
    intro h
    rw [h] at hfull
    exact hcap hfull.symm
  have hie : s.queue.isEmpty = false := by
    simpa using hq
  refine ⟨fun hp => ?_, fun hp => ?_, fun hp => ?_⟩ <;>
    simp [pushStep, hcl, hie, hcap, hfull, hp, spawnDrainer_queue,
      spawnDrainer_chBuf, spawnDrainer_delivered, spawnDrainer_droppedL]

/-- Witness for c5_overflow_policy at a concrete buffer: capacity 1 queue
holding one item, drop policy. -/
theorem c5_overflow_policy_witness :
    (pushStep { chCapacity := 1, queueCapacity := 1, policy := Policy.drop }
      { initState with queue := [0], buffering := true, nextIdx := 1 }).fst =
      PushResult.dropped :=
  ((c5_overflow_policy
      { chCapacity := 1, queueCapacity := 1, policy := Policy.drop }
      { initState with queue := [0], buffering := true, nextIdx := 1 }
      (by decide) (by decide) (by decide)).1 rfl).1

end QueueM

namespace QueueM

theorem spawnDrainer_contents (s : State) :
    contents (spawnDrainer s) = contents s := by
  unfold spawnDrainer contents; split <;> rfl

theorem spawnDrainer_buffering (s : State) :
    (spawnDrainer s).buffering = true := by
  unfold spawnDrainer; split <;> simp_all

theorem sublist_snoc_range {l : List Nat} {n : Nat}
    (h : List.Sublist l (List.range n)) :
    List.Sublist (l ++ [n]) (List.range (n + 1)) := by
  rw [List.range_succ]
  exact h.append (List.Sublist.refl _)

theorem nodup_contents {s : State} (h : Inv s) : (contents s).Nodup :=
  (List.nodup_range s.nextIdx).sublist h.subl

theorem mem_contents_lt {s : State} (h : Inv s) {i : Nat}
    (hm : i ∈ contents s) : i < s.nextIdx :=
  List.mem_range.mp (h.subl.subset hm)

theorem inv_init : Inv initState := by
  constructor <;> simp [contents, initState]

/-- Invariant transfer for states that only add the fresh index at the end
of the pipeline. -/
theorem inv_of_snoc (s t : State) (h : Inv s)
    (hc : contents t = contents s ++ [s.nextIdx])
    (hn : t.nextIdx = s.nextIdx + 1)
    (hd : t.droppedL = s.droppedL)
    (hq : t.queue ≠ [] → t.buffering = true)
    (hh : t.held ≠ none → t.buffering = true)
    (hr : 0 < t.recvWait → t.chBuf = [])
    (hcl : t.closed = false) : Inv t := by
  constructor
  · rw [hc, hn]
    exact sublist_snoc_range h.subl
  · intro i hi
    rw [hn] at hi
    rw [hc, hd]
    rcases Nat.lt_succ_iff_lt_or_eq.mp hi with hi' | hi'
    · rcases h.cover i hi' with hm | hm
      · exact Or.inl (List.mem_append.mpr (Or.inl hm))
      · exact Or.inr hm
    · exact Or.inl (List.mem_append.mpr (Or.inr (by simp [hi'])))
  · intro i hm
    rw [hd] at hm
    rw [hc]
    intro hcm
    rcases List.mem_append.mp hcm with hcm | hcm
    · exact h.excl i hm hcm
    · have hix : i = s.nextIdx := by simpa using hcm
      have := h.dropLt i hm
      omega
  · intro i hm
    rw [hd] at hm
    rw [hn]
    exact Nat.lt_succ_of_lt (h.dropLt i hm)
  · exact hq
  · exact hh
  · exact hr
  · exact hcl

/-- Invariant transfer for states that keep the pipeline and record the
fresh index as dropped. -/
theorem inv_of_dropSnoc (s t : State) (h : Inv s)
    (hc : contents t = contents s)
    (hn : t.nextIdx = s.nextIdx + 1)
    (hd : t.droppedL = s.droppedL ++ [s.nextIdx])
    (hq : t.queue ≠ [] → t.buffering = true)
    (hh : t.held ≠ none → t.buffering = true)
    (hr : 0 < t.recvWait → t.chBuf = [])
    (hcl : t.closed = false) : Inv t := by
  constructor
  · rw [hc, hn]
    exact h.subl.trans (List.range_sublist.mpr (Nat.le_succ _))
  · intro i hi
    rw [hn] at hi
    rw [hc, hd]
    rcases Nat.lt_succ_iff_lt_or_eq.mp hi with hi' | hi'
    · rcases h.cover i hi' with hm | hm
      · exact Or.inl hm
      · exact Or.inr (List.mem_append.mpr (Or.inl hm))
    · exact Or.inr (List.mem_append.mpr (Or.inr (by simp [hi'])))
  · intro i hm
    rw [hc]
    rcases List.mem_append.mp (hd ▸ hm) with hm' | hm'
    · exact h.excl i hm'
    · have hix : i = s.nextIdx := by simpa using hm'
      intro hcm
      have := mem_contents_lt h hcm
      omega
  · intro i hm
    rw [hn]
    rcases List.mem_append.mp (hd ▸ hm) with hm' | hm'
    · exact Nat.lt_succ_of_lt (h.dropLt i hm')
    · have hix : i = s.nextIdx := by simpa using hm'
      omega
  · exact hq
  · exact hh
  · exact hr
  · exact hcl

end QueueM

namespace QueueM

theorem chSend_queue (s : State) (x : Nat) : (chSend s x).queue = s.queue := by
  unfold chSend; split <;> rfl

theorem chSend_held (s : State) (x : Nat) : (chSend s x).held = s.held := by
  unfold chSend; split <;> rfl

theorem chSend_droppedL (s : State) (x : Nat) :
    (chSend s x).droppedL = s.droppedL := by
  unfold chSend; split <;> rfl

theorem chSend_nextIdx (s : State) (x : Nat) :
    (chSend s x).nextIdx = s.nextIdx := by
  unfold chSend; split <;> rfl

theorem chSend_closed (s : State) (x : Nat) :
    (chSend s x).closed = s.closed := by
  unfold chSend; split <;> rfl

theorem chSend_buffering (s : State) (x : Nat) :
    (chSend s x).buffering = s.buffering := by
  unfold chSend; split <;> rfl

theorem chSend_contents (s : State) (x : Nat)
    (hrw : 0 < s.recvWait → s.chBuf = []) :
    contents (chSend s x) =
      s.delivered ++ s.chBuf ++ [x] ++ s.held.toList ++ s.queue := by
  unfold chSend
  by_cases hr : 0 < s.recvWait
  · simp [contents, if_pos hr, hrw hr]
  · simp [contents, if_neg hr]

theorem chSend_rw0 (s : State) (x : Nat)
    (hrw : 0 < s.recvWait → s.chBuf = []) :
    0 < (chSend s x).recvWait → (chSend s x).chBuf = [] := by
  unfold chSend
  by_cases hr : 0 < s.recvWait
  · simp [if_pos hr, hrw hr]
  · intro hx
    simp [if_neg hr] at hx ⊢
    omega

/-- Invariant preservation for the PolicyRemove overflow branch. -/
theorem inv_remove (s : State) (h : Inv s) (hqne : s.queue ≠ []) :
    Inv (spawnDrainer
      { s with queue := s.queue.tail ++ [s.nextIdx],
               droppedL := s.droppedL ++ s.queue.take 1,
               nextIdx := s.nextIdx + 1 }) := by
  obtain ⟨qh, qt, hqeq⟩ : ∃ a l, s.queue = a :: l := by
    cases hq : s.queue with
    | nil => exact absurd hq hqne
    | cons a l => exact ⟨a, l, rfl⟩
  have hcs : contents s =
      s.delivered ++ (s.chBuf ++ (s.held.toList ++ (qh :: qt))) := by
    simp [contents, hqeq]
  have hct : contents (spawnDrainer
      { s with queue := s.queue.tail ++ [s.nextIdx],
               droppedL := s.droppedL ++ s.queue.take 1,
               nextIdx := s.nextIdx + 1 }) =
      (s.delivered ++ (s.chBuf ++ (s.held.toList ++ qt))) ++ [s.nextIdx] := by
    rw [spawnDrainer_contents]
    simp [contents, hqeq, List.append_assoc]
  have hsubA :
      List.Sublist (s.delivered ++ (s.chBuf ++ (s.held.toList ++ qt)))
        (contents s) := by
    rw [hcs]
    exact ((((List.sublist_cons_self qh qt).append_left
      s.held.toList).append_left s.chBuf).append_left s.delivered)
  have hqhmem : qh ∈ contents s := by
    rw [hcs]; simp
  have hqhlt : qh < s.nextIdx := mem_contents_lt h hqhmem
  have hnd := nodup_contents h
  constructor
  · rw [hct]
    simp only [spawnDrainer_nextIdx]
    show List.Sublist _ (List.range (s.nextIdx + 1))
    rw [List.range_succ]
    exact (hsubA.trans h.subl).append (List.Sublist.refl _)
  · intro i hi
    simp only [spawnDrainer_nextIdx] at hi
    rw [hct]
    simp only [spawnDrainer_droppedL]
    rcases Nat.lt_succ_iff_lt_or_eq.mp hi with hi' | hi'
    · rcases h.cover i hi' with hm | hm
      · rw [hcs] at hm
        simp only [List.mem_append, List.mem_cons] at hm ⊢
        simp only [hqeq, List.take, List.mem_singleton]
        rcases hm with hm | hm | hm | hm | hm
        · tauto
        · tauto
        · tauto
        · subst hm; tauto
        · tauto
      · simp only [List.mem_append] at hm ⊢
        tauto
    · subst hi'
      simp
  · intro i hm hcm
    simp only [spawnDrainer_droppedL, hqeq, List.take, List.mem_append,
      List.mem_singleton] at hm
    rw [hct] at hcm
    simp only [List.mem_append, List.mem_singleton] at hcm
    have hnodups : List.count qh (contents s) ≤ 1 :=
      List.nodup_iff_count_le_one.mp hnd qh
    rcases hm with hm | hm
    · have hnot := h.excl i hm
      have hlt := h.dropLt i hm
      rcases hcm with (hc | hc | hc) | hc
      · exact hnot (by rw [hcs]; simp [hc])
      · exact hnot (by rw [hcs]; simp [hc])
      · rcases hc with hc | hc
        · exact hnot (by rw [hcs]; simp [hc])
        · exact hnot (by rw [hcs]; simp [hc])
      · omega
    · subst hm
      have h2 : List.count i (contents s) =
          List.count i s.delivered + (List.count i s.chBuf +
            (List.count i s.held.toList + (List.count i qt + 1))) := by
        rw [hcs]; simp [List.count_append, List.count_cons]
      rcases hcm with (hc | hc | hc) | hc
      · have h1 : 0 < List.count i s.delivered := List.count_pos_iff.mpr hc
        omega
      · have h1 : 0 < List.count i s.chBuf := List.count_pos_iff.mpr hc
        omega
      · rcases hc with hc | hc
        · have h1 : 0 < List.count i s.held.toList :=
            List.count_pos_iff.mpr hc
          omega
        · have h1 : 0 < List.count i qt := List.count_pos_iff.mpr hc
          omega
      · omega
  · intro i hm
    simp only [spawnDrainer_droppedL, spawnDrainer_nextIdx, hqeq, List.take,
      List.mem_append, List.mem_singleton] at hm ⊢
    rcases hm with hm | hm
    · have := h.dropLt i hm
      omega
    · subst hm
      omega
  · intro _
    exact spawnDrainer_buffering _
  · intro _
    exact spawnDrainer_buffering _
  · simp only [spawnDrainer_recvWait, spawnDrainer_chBuf]
    exact h.rw0
  · simp only [spawnDrainer_closed]
    exact h.ncl

end QueueM

namespace QueueM

/-- Invariant preservation for the PolicyClear overflow branch. -/
theorem inv_clear (s : State) (h : Inv s) :
    Inv (spawnDrainer
      { s with queue := [s.nextIdx],
               droppedL := s.droppedL ++ s.queue,
               nextIdx := s.nextIdx + 1 }) := by
  have hcs : contents s =
      s.delivered ++ (s.chBuf ++ (s.held.toList ++ s.queue)) := by
    simp [contents]
  have hct : contents (spawnDrainer
      { s with queue := [s.nextIdx],
               droppedL := s.droppedL ++ s.queue,
               nextIdx := s.nextIdx + 1 }) =
      (s.delivered ++ (s.chBuf ++ s.held.toList)) ++ [s.nextIdx] := by
    rw [spawnDrainer_contents]
    simp [contents, List.append_assoc]
  have hsubA :
      List.Sublist (s.delivered ++ (s.chBuf ++ s.held.toList))
        (contents s) := by
    rw [hcs]
    have h1 : List.Sublist (s.held.toList) (s.held.toList ++ s.queue) :=
      List.sublist_append_left _ _
    exact ((h1.append_left s.chBuf).append_left s.delivered)
  have hnd := nodup_contents h
  constructor
  · rw [hct]
    simp only [spawnDrainer_nextIdx]
    show List.Sublist _ (List.range (s.nextIdx + 1))
    rw [List.range_succ]
    exact (hsubA.trans h.subl).append (List.Sublist.refl _)
  · intro i hi
    simp only [spawnDrainer_nextIdx] at hi
    rw [hct]
    simp only [spawnDrainer_droppedL]
    rcases Nat.lt_succ_iff_lt_or_eq.mp hi with hi' | hi'
    · rcases h.cover i hi' with hm | hm
      · rw [hcs] at hm
        simp only [List.mem_append, List.mem_singleton] at hm ⊢
        tauto
      · simp only [List.mem_append] at hm ⊢
        tauto
    · subst hi'
      simp
  · intro i hm hcm
    simp only [spawnDrainer_droppedL, List.mem_append] at hm
    rw [hct] at hcm
    simp only [List.mem_append, List.mem_singleton] at hcm
    rcases hm with hm | hm
    · have hnot := h.excl i hm
      have hlt := h.dropLt i hm
      rcases hcm with (hc | hc | hc) | hc
      · exact hnot (by rw [hcs]; simp [hc])
      · exact hnot (by rw [hcs]; simp [hc])
      · exact hnot (by rw [hcs]; simp [hc])
      · omega
    · have hmemq : i ∈ contents s := by
        rw [hcs]; simp [hm]
      have hlt := mem_contents_lt h hmemq
      have h2 : List.count i (contents s) =
          List.count i s.delivered + (List.count i s.chBuf +
            (List.count i s.held.toList + List.count i s.queue)) := by
        rw [hcs]; simp [List.count_append]
      have hq1 : 0 < List.count i s.queue := List.count_pos_iff.mpr hm
      have hnodups : List.count i (contents s) ≤ 1 :=
        List.nodup_iff_count_le_one.mp hnd i
      rcases hcm with (hc | hc | hc) | hc
      · have h1 : 0 < List.count i s.delivered := List.count_pos_iff.mpr hc
        omega
      · have h1 : 0 < List.count i s.chBuf := List.count_pos_iff.mpr hc
        omega
      · have h1 : 0 < List.count i s.held.toList := List.count_pos_iff.mpr hc
        omega
      · omega
  · intro i hm
    simp only [spawnDrainer_droppedL, spawnDrainer_nextIdx,
      List.mem_append] at hm ⊢
    rcases hm with hm | hm
    · have := h.dropLt i hm
      omega
    · have hmemq : i ∈ contents s := by
        rw [hcs]; simp [hm]
      have := mem_contents_lt h hmemq
      omega
  · intro _
    exact spawnDrainer_buffering _
  · intro _
    exact spawnDrainer_buffering _
  · simp only [spawnDrainer_recvWait, spawnDrainer_chBuf]
    exact h.rw0
  · simp only [spawnDrainer_closed]
    exact h.ncl

end QueueM

namespace QueueM

/-- Invariant preservation for Buffer.Push. -/
theorem inv_push (cfg : Config) (s : State) (h : Inv s) :
    Inv (pushStep cfg s).snd := by
  have hcl := h.ncl
  unfold pushStep
  rw [if_neg (by simp [hcl])]
  by_cases hf : (!s.buffering && s.queue.isEmpty && chSendReady cfg s) = true
  · rw [if_pos hf]
    simp only [Bool.and_eq_true, Bool.not_eq_true'] at hf
    obtain ⟨⟨hb, hqe⟩, hready⟩ := hf
    have hq : s.queue = [] := by simpa using hqe
    have hheld : s.held = none := by
      by_contra hh
      have hbt := h.hBuf hh
      rw [hb] at hbt
      exact Bool.noConfusion hbt
    apply inv_of_snoc s _ h
    · show contents (chSend s s.nextIdx) = contents s ++ [s.nextIdx]
      rw [chSend_contents s s.nextIdx h.rw0]
      simp [contents, hq, hheld]
    · rfl
    · exact chSend_droppedL s _
    · intro hne
      exfalso
      apply hne
      show (chSend s s.nextIdx).queue = []
      rw [chSend_queue]
      exact hq
    · intro hne
      exfalso
      apply hne
      show (chSend s s.nextIdx).held = none
      rw [chSend_held]
      exact hheld
    · exact chSend_rw0 s _ h.rw0
    · show (chSend s s.nextIdx).closed = false
      rw [chSend_closed]
      exact hcl
  · rw [if_neg hf]
    by_cases hfull : cfg.queueCapacity ≠ 0 ∧ s.queue.length = cfg.queueCapacity
    · rw [if_pos hfull]
      rcases hcp : cfg.policy with _ | _ | _
      · apply inv_of_dropSnoc s _ h
        · simp [contents]
        · rfl
        · rfl
        · exact h.qBuf
        · exact h.hBuf
        · exact h.rw0
        · exact hcl
      · have hqne : s.queue ≠ [] := by
          intro he
          rw [he] at hfull
          exact hfull.1 hfull.2.symm
        exact inv_remove s h hqne
      · exact inv_clear s h
    · rw [if_neg hfull]
      apply inv_of_snoc s _ h
      · rw [spawnDrainer_contents]
        simp [contents, List.append_assoc]
      · rw [spawnDrainer_nextIdx]
      · rw [spawnDrainer_droppedL]
      · intro _
        exact spawnDrainer_buffering _
      · intro _
        exact spawnDrainer_buffering _
      · rw [spawnDrainer_recvWait, spawnDrainer_chBuf]
        exact h.rw0
      · rw [spawnDrainer_closed]
        exact hcl

end QueueM

namespace QueueM

/-- Invariant transfer for steps that only rearrange the pipeline. -/
theorem inv_transfer (s t : State) (h : Inv s)
    (hc : contents t = contents s)
    (hn : t.nextIdx = s.nextIdx)
    (hd : t.droppedL = s.droppedL)
    (hq : t.queue ≠ [] → t.buffering = true)
    (hh : t.held ≠ none → t.buffering = true)
    (hr : 0 < t.recvWait → t.chBuf = [])
    (hcl : t.closed = false) : Inv t := by
  constructor
  · rw [hc, hn]
    exact h.subl
  · intro i hi
    rw [hn] at hi
    rw [hc, hd]
    exact h.cover i hi
  · intro i hm
    rw [hd] at hm
    rw [hc]
    exact h.excl i hm
  · intro i hm
    rw [hd] at hm
    rw [hn]
    exact h.dropLt i hm
  · exact hq
  · exact hh
  · exact hr
  · exact hcl

/-- Every buffer step preserves the invariant. -/
theorem inv_step {cfg : Config} {s s' : State} {l : Label} (h : Inv s)
    (hs : Step cfg s l s') : Inv s' := by
  cases hs with
  | push =>
      exact inv_push cfg s h
  | drainPop x t hb hheld hqeq =>
      apply inv_transfer s _ h
      · simp [contents, hheld, hqeq]
      · rfl
      · rfl
      · intro _
        exact hb
      · intro _
        exact hb
      · exact h.rw0
      · exact h.ncl
  | drainIdleExit hb hheld hqeq =>
      apply inv_transfer s _ h
      · simp [contents]
      · rfl
      · rfl
      · intro hne
        exact absurd hqeq hne
      · intro hne
        exact absurd hheld hne
      · exact h.rw0
      · exact h.ncl
  | drainSend x hheld hready =>
      apply inv_transfer s _ h
      · unfold chSend
        by_cases hr : 0 < s.recvWait
        · simp [contents, if_pos hr, h.rw0 hr, hheld]
        · simp [contents, if_neg hr, hheld]
      · exact chSend_nextIdx s x
      · exact chSend_droppedL s x
      · intro hne
        show (chSend s x).buffering = true
        rw [chSend_buffering]
        refine h.qBuf ?_
        rwa [chSend_queue] at hne
      · intro hne
        exact absurd rfl hne
      · exact chSend_rw0 s x h.rw0
      · show (chSend s x).closed = false
        rw [chSend_closed]
        exact h.ncl
  | recvTake x t hqeq =>
      apply inv_transfer s _ h
      · simp [contents, hqeq]
      · rfl
      · rfl
      · exact h.qBuf
      · exact h.hBuf
      · intro hrw
        exfalso
        have hcb := h.rw0 hrw
        rw [hqeq] at hcb
        exact List.noConfusion hcb
      · exact h.ncl
  | recvPark hcb hcl =>
      apply inv_transfer s _ h
      · simp [contents]
      · rfl
      · rfl
      · exact h.qBuf
      · exact h.hBuf
      · intro _
        exact hcb
      · exact h.ncl

end QueueM

namespace QueueM

/-- Every reachable buffer state satisfies the invariant. -/
theorem reach_inv {cfg : Config} {s : State} (h : Reach cfg s) : Inv s := by
  induction h with
  | init => exact inv_init
  | step _ hs ih => exact inv_step ih hs

/-- Claim C2: for every elastic buffer and every interleaving of
submissions by any number of producers, the consumer receives items only
in the exact order in which Push accepted them, across both the fast path
and the overflow queue drained by the background drainer (the delivered
sequence is a sublist of the acceptance order, hence strictly increasing
in acceptance index), and once the channel, the drainer and the overflow
queue are empty the consumer has received exactly the accepted items that
were not dropped, in acceptance order. -/
theorem c2_buffer_fifo (cfg : Config) (s : State) (h : Reach cfg s) :
    (∃ rest, s.delivered ++ rest = contents s) ∧
    List.Sublist s.delivered (List.range s.nextIdx) ∧
    List.Pairwise (· < ·) s.delivered ∧
    (s.chBuf = [] → s.held = none → s.queue = [] →
      ∀ i, i ∈ s.delivered ↔ (i < s.nextIdx ∧ i ∉ s.droppedL)) := by
  have hinv := reach_inv h
  have hpre : List.Sublist s.delivered (contents s) := by
    unfold contents
    exact ((List.sublist_append_left _ _).trans
      (List.sublist_append_left _ _)).trans (List.sublist_append_left _ _)
  refine ⟨⟨s.chBuf ++ s.held.toList ++ s.queue, by
    simp [contents, List.append_assoc]⟩, hpre.trans hinv.subl, ?_, ?_⟩
  · exact List.Pairwise.sublist (hpre.trans hinv.subl)
      (List.pairwise_lt_range _)
  · intro hcb hhld hq i
    have hce : contents s = s.delivered := by
      simp [contents, hcb, hhld, hq]
    constructor
    · intro hm
      have hmc : i ∈ contents s := by
        rw [hce]
        exact hm
      exact ⟨mem_contents_lt hinv hmc, fun hd => hinv.excl i hd hmc⟩
    · rintro ⟨hlt, hnd⟩
      rcases hinv.cover i hlt with hm | hm
      · rwa [hce] at hm
      · exact absurd hm hnd

/-- The two-item trace: first item takes the fast path, second goes through
the overflow queue and the drainer, consumer receives both in order. -/
theorem reach_sDrainedW : Reach cfgW sDrainedW := by
  have h0 : Reach cfgW initState := Reach.init
  have h1 : Reach cfgW
      { queue := [], chBuf := [0], recvWait := 0, buffering := false,
        held := none, closed := false, delivered := [], droppedL := [],
        nextIdx := 1 } := h0.step (Step.push initState)
  have h2 : Reach cfgW
      { queue := [1], chBuf := [0], recvWait := 0, buffering := true,
        held := none, closed := false, delivered := [], droppedL := [],
        nextIdx := 2 } := h1.step (Step.push _)
  have h3 : Reach cfgW
      { queue := [], chBuf := [0], recvWait := 0, buffering := true,
        held := some 1, closed := false, delivered := [], droppedL := [],
        nextIdx := 2 } := h2.step (Step.drainPop _ 1 [] rfl rfl rfl)
  have h4 : Reach cfgW
      { queue := [], chBuf := [], recvWait := 0, buffering := true,
        held := some 1, closed := false, delivered := [0], droppedL := [],
        nextIdx := 2 } := h3.step (Step.recvTake _ 0 [] rfl)
  have h5 : Reach cfgW
      { queue := [], chBuf := [1], recvWait := 0, buffering := true,
        held := none, closed := false, delivered := [0], droppedL := [],
        nextIdx := 2 } := h4.step (Step.drainSend _ 1 rfl rfl)
  have h6 : Reach cfgW
      { queue := [], chBuf := [], recvWait := 0, buffering := true,
        held := none, closed := false, delivered := [0, 1], droppedL := [],
        nextIdx := 2 } := h5.step (Step.recvTake _ 1 [] rfl)
  exact h6.step (Step.drainIdleExit _ rfl rfl rfl)

/-- Witness for c2_buffer_fifo: the concrete drained two-item trace, where
the consumer received exactly the accepted items in order. -/
theorem c2_buffer_fifo_witness :
    Reach cfgW sDrainedW ∧
    (∀ i, i ∈ sDrainedW.delivered ↔
      (i < sDrainedW.nextIdx ∧ i ∉ sDrainedW.droppedL)) :=
  ⟨reach_sDrainedW,
    (c2_buffer_fifo cfgW sDrainedW reach_sDrainedW).2.2.2 rfl rfl rfl⟩

/-- Claim C8 counterexample: with channel capacity 0, a consumer parked on
the unbuffered channel lets Push succeed on the fast path by rendezvous,
so Push returns PushToChan from a reachable state, contradicting the
claim that every accepted submission goes through the overflow queue. -/
theorem c8_counterexample :
    cfgZ.chCapacity = 0 ∧ Reach cfgZ sParkZ ∧
    (pushStep cfgZ sParkZ).fst = PushResult.toChan := by
  refine ⟨rfl, ?_, by decide⟩
  exact Reach.step Reach.init (Step.recvPark initState rfl rfl)

/-- Claim C8 (amended): for a buffer with channel capacity 0, a Push from
any reachable state with no consumer parked on the channel never returns
PushToChan (every accepted submission goes through the overflow queue),
and the consumer observes items in FIFO acceptance order. -/
theorem c8_amended (cfg : Config) (s : State)
    (h0 : cfg.chCapacity = 0) (hr : s.recvWait = 0) (hre : Reach cfg s) :
    (pushStep cfg s).fst ≠ PushResult.toChan ∧
    List.Sublist s.delivered (List.range s.nextIdx) := by
  constructor
  · have hready : chSendReady cfg s = false := by
      unfold chSendReady
      simp [hr, h0]
    unfold pushStep
    split_ifs with h1 h2 h3
    · simp
    · exfalso
      rw [hready] at h2
      simp at h2
    · rcases hcp : cfg.policy with _ | _ | _ <;> simp [hcp]
    · simp
  · have hinv := reach_inv hre
    have hpre : List.Sublist s.delivered (contents s) := by
      unfold contents
      exact ((List.sublist_append_left _ _).trans
        (List.sublist_append_left _ _)).trans (List.sublist_append_left _ _)
    exact hpre.trans hinv.subl

/-- Witness for c8_amended at the freshly constructed capacity 0 buffer. -/
theorem c8_amended_witness :
    cfgZ.chCapacity = 0 ∧ (pushStep cfgZ initState).fst ≠ PushResult.toChan :=
  ⟨rfl, (c8_amended cfgZ initState rfl rfl Reach.init).1⟩

end QueueM

namespace StatusM

theorem cstep_ne_ready {s s' : CState} {e : Ev} (h : CStep s e s')
    (hne : s.status ≠ St.ready) : s'.status ≠ St.ready := by
  cases h <;> simp_all

theorem cstep_beginStartT_src {s s' : CState}
    (h : CStep s Ev.beginStartT s') : s.status = St.ready := by
  cases h
  assumption

theorem cstep_beginStartT_dst {s s' : CState}
    (h : CStep s Ev.beginStartT s') : s'.status = St.starting := by
  cases h
  rfl

/-- States that are already stopping or stopped stay so. -/
def StoppedLike (s : CState) : Prop :=
  s.status = St.stopping ∨ s.status = St.stopped

theorem cstep_stoppedLike {s s' : CState} {e : Ev} (h : CStep s e s')
    (hp : StoppedLike s) : StoppedLike s' := by
  cases h <;> simp_all [StoppedLike]

theorem cstep_beginStopT_src {s s' : CState}
    (h : CStep s Ev.beginStopT s') : s.status = St.running := by
  cases h
  assumption

theorem cstep_beginStopT_dst {s s' : CState}
    (h : CStep s Ev.beginStopT s') : StoppedLike s' := by
  cases h
  exact Or.inl rfl

theorem trace_count_beginStartT_zero {s s' : CState} {evs : List Ev}
    (h : Trace s evs s') (hne : s.status ≠ St.ready) :
    evs.count Ev.beginStartT = 0 := by
  induction h with
  | nil => rfl
  | cons hstep htr ih =>
      rename_i s1 s2 s3 e evs'
      have hrest := ih (cstep_ne_ready hstep hne)
      by_cases he : e = Ev.beginStartT
      · exact absurd (cstep_beginStartT_src (he ▸ hstep)) hne
      · rw [List.count_cons]
        simp [hrest, he]

theorem trace_count_beginStartT_le_one {s s' : CState} {evs : List Ev}
    (h : Trace s evs s') : evs.count Ev.beginStartT ≤ 1 := by
  induction h with
  | nil => simp
  | cons hstep htr ih =>
      rename_i s1 s2 s3 e evs'
      by_cases he : e = Ev.beginStartT
      · subst he
        have hdst : s2.status = St.starting := cstep_beginStartT_dst hstep
        have hz := trace_count_beginStartT_zero htr (by
          rw [hdst]
          simp)
        rw [List.count_cons]
        simp [hz]
      · rw [List.count_cons]
        simp [he]
        omega

theorem trace_count_beginStopT_zero {s s' : CState} {evs : List Ev}
    (h : Trace s evs s') (hp : StoppedLike s) :
    evs.count Ev.beginStopT = 0 := by
  induction h with
  | nil => rfl
  | cons hstep htr ih =>
      rename_i s1 s2 s3 e evs'
      have hrest := ih (cstep_stoppedLike hstep hp)
      by_cases he : e = Ev.beginStopT
      · have := cstep_beginStopT_src (he ▸ hstep)
        rcases hp with hp | hp <;> rw [hp] at this <;> exact St.noConfusion this
      · rw [List.count_cons]
        simp [hrest, he]

theorem trace_count_beginStopT_le_one {s s' : CState} {evs : List Ev}
    (h : Trace s evs s') : evs.count Ev.beginStopT ≤ 1 := by
  induction h with
  | nil => simp
  | cons hstep htr ih =>
      rename_i s1 s2 s3 e evs'
      by_cases he : e = Ev.beginStopT
      · subst he
        have hz := trace_count_beginStopT_zero htr (cstep_beginStopT_dst hstep)
        rw [List.count_cons]
        simp [hz]
      · rw [List.count_cons]
        simp [he]
        omega

/-- Claim C6: for every status controller and every interleaving of
concurrent actors, at most one actor ever observes beginStart (Starting)
returning true, and at most one ever observes beginStop (Stopping)
returning true; in particular at most one true observation happens before
the matching endStart, failStart or endStop, and every other concurrent
caller that completes gets false. -/
theorem c6_single_transition (evs : List Ev) (s : CState)
    (h : Trace init evs s) :
    evs.count Ev.beginStartT ≤ 1 ∧ evs.count Ev.beginStopT ≤ 1 :=
  ⟨trace_count_beginStartT_le_one h, trace_count_beginStopT_le_one h⟩

/-- Witness for c6_single_transition: a full start and stop cycle. -/
theorem c6_single_transition_witness :
    Trace init
      [Ev.beginStartT, Ev.startedOk, Ev.beginStopDown, Ev.beginStopT,
        Ev.stoppedOk]
      { status := St.stopped, down := true, readers := 0 } ∧
    ([Ev.beginStartT, Ev.startedOk, Ev.beginStopDown, Ev.beginStopT,
        Ev.stoppedOk].count Ev.beginStartT ≤ 1 ∧
      [Ev.beginStartT, Ev.startedOk, Ev.beginStopDown, Ev.beginStopT,
        Ev.stoppedOk].count Ev.beginStopT ≤ 1) := by
  have htr : Trace init
      [Ev.beginStartT, Ev.startedOk, Ev.beginStopDown, Ev.beginStopT,
        Ev.stoppedOk]
      { status := St.stopped, down := true, readers := 0 } :=
    Trace.cons (CStep.beginStartT init rfl rfl)
      (Trace.cons (CStep.startedOk _ rfl)
        (Trace.cons (CStep.beginStopDown _ rfl)
          (Trace.cons (CStep.beginStopT _ rfl rfl rfl)
            (Trace.cons (CStep.stoppedOk _ rfl) (Trace.nil _)))))
  exact ⟨htr, c6_single_transition _ _ htr⟩

theorem cstep_down_mono {s s' : CState} {e : Ev} (h : CStep s e s')
    (hd : s.down = true) : s'.down = true := by
  cases h <;> simp_all

theorem trace_down_mono {s s' : CState} {evs : List Ev}
    (h : Trace s evs s') (hd : s.down = true) : s'.down = true := by
  induction h with
  | nil => exact hd
  | cons hstep htr ih => exact ih (cstep_down_mono hstep hd)

theorem cstep_beginStopDown_dst {s s' : CState}
    (h : CStep s Ev.beginStopDown s') : s'.down = true := by
  cases h
  rfl

theorem cstep_keepRunT_down {s s' : CState}
    (h : CStep s Ev.keepRunT s') : s.down = false := by
  cases h
  assumption

theorem cstep_keepRunCtxT_down {s s' : CState}
    (h : CStep s Ev.keepRunCtxT s') : s.down = false := by
  cases h
  assumption

theorem trace_no_keepRunT_of_down {s s' : CState} {evs : List Ev}
    (h : Trace s evs s') (hd : s.down = true) :
    Ev.keepRunT ∉ evs ∧ Ev.keepRunCtxT ∉ evs := by
  induction h with
  | nil => simp
  | cons hstep htr ih =>
      rename_i s1 s2 s3 e evs'
      have hrest := ih (cstep_down_mono hstep hd)
      constructor
      · intro hmem
        rcases List.mem_cons.mp hmem with hmem | hmem
        · rw [← hmem] at hstep
          rw [cstep_keepRunT_down hstep] at hd
          exact Bool.noConfusion hd
        · exact hrest.1 hmem
      · intro hmem
        rcases List.mem_cons.mp hmem with hmem | hmem
        · rw [← hmem] at hstep
          rw [cstep_keepRunCtxT_down hstep] at hd
          exact Bool.noConfusion hd
        · exact hrest.2 hmem

/-- Claim C9: the down flag set at the start of Stopping is never cleared,
even when Stopping returns false, so after any completed Stopping
down-write every later KeepRunning and KeepRunningWithContext completion
returns false (the true completions are impossible and the false
completions are enabled), including when the controller later goes
through Starting to Running again. -/
theorem c9_down_permanent (s1 s2 s3 : CState) (evs1 evs2 : List Ev)
    (h1 : Trace init evs1 s1) (hstop : CStep s1 Ev.beginStopDown s2)
    (h2 : Trace s2 evs2 s3) :
    s3.down = true ∧ Ev.keepRunT ∉ evs2 ∧ Ev.keepRunCtxT ∉ evs2 ∧
    CStep s3 Ev.keepRunF s3 ∧ CStep s3 Ev.keepRunCtxF s3 := by
  have hd2 : s2.down = true := cstep_beginStopDown_dst hstop
  have hd3 : s3.down = true := trace_down_mono h2 hd2
  have hno := trace_no_keepRunT_of_down h2 hd2
  exact ⟨hd3, hno.1, hno.2,
    CStep.keepRunF s3 (Or.inl hd3), CStep.keepRunCtxF s3 (Or.inl hd3)⟩

/-- Witness for c9_down_permanent: Stopping is called on a Ready controller
(returning false), which nevertheless sets down; the controller then
starts and runs, and KeepRunning still completes false. -/
theorem c9_down_permanent_witness :
    CStep init Ev.beginStopDown { status := St.ready, down := true, readers := 0 } ∧
    Trace { status := St.ready, down := true, readers := 0 }
      [Ev.beginStartT, Ev.startedOk]
      { status := St.running, down := true, readers := 0 } ∧
    ({ status := St.running, down := true, readers := 0 } : CState).down = true := by
  have hstop : CStep init Ev.beginStopDown
      { status := St.ready, down := true, readers := 0 } :=
    CStep.beginStopDown init rfl
  have htr : Trace { status := St.ready, down := true, readers := 0 }
      [Ev.beginStartT, Ev.startedOk]
      { status := St.running, down := true, readers := 0 } :=
    Trace.cons (CStep.beginStartT _ rfl rfl)
      (Trace.cons (CStep.startedOk _ rfl) (Trace.nil _))
  exact ⟨hstop, htr,
    (c9_down_permanent init _ _ [] [Ev.beginStartT, Ev.startedOk]
      (Trace.nil _) hstop htr).1⟩

end StatusM

namespace MCtxM

theorem get?_set_self {α : Type} (l : List α) (i : Nat) (a : α)
    (h : i < l.length) : (l.set i a).get? i = some a := by
  induction l generalizing i with
  | nil => simp at h
  | cons b t ih =>
      cases i with
      | zero => rfl
      | succ k => simpa using ih k (by simpa using h)

theorem get?_set_ne {α : Type} (l : List α) (i j : Nat) (a : α)
    (h : i ≠ j) : (l.set j a).get? i = l.get? i := by
  induction l generalizing i j with
  | nil => rfl
  | cons b t ih =>
      cases j with
      | zero =>
          cases i with
          | zero => exact absurd rfl h
          | succ k => rfl
      | succ m =>
          cases i with
          | zero => rfl
          | succ k =>
              simpa using ih k m (fun hc => h (by rw [hc]))

theorem mstep_fired_mono {s s' : MState} {i : Nat} (hs : MStep s s')
    (hf : s.fired.get? i = some true) : s'.fired.get? i = some true := by
  cases hs with
  | fire j hlen hnot =>
      by_cases hij : i = j
      · subst hij
        have hlt : i < s.fired.length := by
          rcases List.get?_eq_some.mp hf with ⟨hl, _⟩
          exact hl
        exact get?_set_self s.fired i true hlt
      · rw [get?_set_ne s.fired i j true hij]
        exact hf
  | listen _ => exact hf
  | dispose => exact hf
  | selectExternal j _ _ _ => exact hf
  | selectQuit _ _ _ => exact hf

theorem mreach_inv {n : Nat} {s : MState} (h : Reach n s) :
    (∀ i, s.hit = some i → s.fired.get? i = some true) ∧
    (s.doneFired = true → s.disposed = true ∨ s.hit.isSome = true) := by
  induction h with
  | init => simp [initState]
  | step hr hs ih =>
      rename_i s1 s2
      constructor
      · intro i hi
        cases hs with
        | fire j hlen hnot =>
            exact mstep_fired_mono (MStep.fire s1 j hlen hnot) (ih.1 i hi)
        | listen _ => exact ih.1 i hi
        | dispose => exact ih.1 i hi
        | selectExternal j hl hd hf =>
            have : some j = some i := hi
            rw [← Option.some_inj.mp this]
            exact hf
        | selectQuit _ _ _ => exact ih.1 i hi
      · intro hd
        cases hs with
        | fire j hlen hnot => exact ih.2 hd
        | listen _ => exact ih.2 hd
        | dispose =>
            rcases ih.2 hd with h1 | h1
            · exact Or.inl rfl
            · exact Or.inr h1
        | selectExternal j hl hdf hf => exact Or.inr rfl
        | selectQuit hl hdf hdisp => exact Or.inl hdisp

/-- Claim C7 counterexample: both child contexts fire before the listener's
select commits (for instance both are canceled before the Listen
goroutine is scheduled); reflect.Select may then choose the case of the
second source, so the stored hit is not the first-firing source. -/
theorem c7_counterexample :
    Reach 2 sLateHit ∧ sLateHit.doneFired = true ∧
    sLateHit.firstFired = some 0 ∧ sLateHit.hit = some 1 ∧
    sLateHit.hit ≠ sLateHit.firstFired := by
  refine ⟨?_, rfl, rfl, rfl, by decide⟩
  exact Reach.step
    (Reach.step
      (Reach.step
        (Reach.step Reach.init (MStep.listen _ rfl))
        (MStep.fire _ 0 (by decide) (by decide)))
      (MStep.fire _ 1 (by decide) (by decide)))
    (MStep.selectExternal _ 1 rfl rfl (by decide))

/-- Claim C7 (amended): for every multi-context aggregator on which Listen
was called, the done signal fires only when some child fired or the
aggregator was disposed, and the firing step is enabled whenever one of
these holds; when a child selection fired done, the hit was stored before
the done fired, Hit() is a child that had fired (the select winner, which
is the first-firing child whenever it is the only one fired, but not
necessarily otherwise), and Err() returns that child's error. -/
theorem c7_amended (n : Nat) (s : MState) (h : Reach n s) :
    (s.doneFired = true →
      s.disposed = true ∨ ∃ i, s.fired.get? i = some true) ∧
    (s.doneFired = true → s.disposed = true ∨ s.hit.isSome = true) ∧
    (∀ i, s.hit = some i → s.fired.get? i = some true ∧
      ∀ errs : Nat → Nat, mErr errs s = errs i) ∧
    (∀ i j, s.hit = some i →
      (∀ k, s.fired.get? k = some true → k = j) → i = j) ∧
    (s.listening = true → s.doneFired = false →
      (s.disposed = true ∨ ∃ i, s.fired.get? i = some true) →
      ∃ s', MStep s s') := by
  have hinv := mreach_inv h
  refine ⟨?_, hinv.2, ?_, ?_, ?_⟩
  · intro hd
    rcases hinv.2 hd with h1 | h1
    · exact Or.inl h1
    · rcases Option.isSome_iff_exists.mp h1 with ⟨i, hi⟩
      exact Or.inr ⟨i, hinv.1 i hi⟩
  · intro i hi
    refine ⟨hinv.1 i hi, fun errs => ?_⟩
    unfold mErr
    rw [hi]
  · intro i j hi hall
    exact hall i (hinv.1 i hi)
  · intro hl hd hsome
    rcases hsome with h1 | ⟨i, h1⟩
    · exact ⟨_, MStep.selectQuit s hl hd h1⟩
    · exact ⟨_, MStep.selectExternal s i hl hd h1⟩

/-- Witness for c7_amended: a single child context that fires and wins the
select. -/
theorem c7_amended_witness :
    Reach 1 sOneHit ∧
    (sOneHit.fired.get? 0 = some true ∧
      ∀ errs : Nat → Nat, mErr errs sOneHit = errs 0) := by
  have htr : Reach 1 sOneHit :=
    Reach.step
      (Reach.step
        (Reach.step Reach.init (MStep.listen _ rfl))
        (MStep.fire _ 0 (by decide) (by decide)))
      (MStep.selectExternal _ 0 rfl rfl (by decide))
  exact ⟨htr, (c7_amended 1 sOneHit htr).2.2.1 0 rfl⟩

end MCtxM

namespace ReactorOrd

theorem filter_bandF_concat (bl : List Band) (x b : Band) (l : List Nat)
    (hb : ∀ i ∈ l, i < bl.length) :
    l.filter (bandF (bl ++ [x]) b) = l.filter (bandF bl b) := by
  apply List.filter_congr
  intro i hi
  unfold bandF
  rw [List.get?_append (hb i hi)]

theorem bandIdsL_concat (bl : List Band) (x b : Band) :
    bandIdsL (bl ++ [x]) b =
      bandIdsL bl b ++ (if x = b then [bl.length] else []) := by
  unfold bandIdsL
  have hlen : (bl ++ [x]).length = bl.length + 1 := by simp
  rw [hlen, List.range_succ, List.filter_append]
  congr 1
  · exact filter_bandF_concat bl x b _ (fun i hi => List.mem_range.mp hi)
  · by_cases hxb : x = b <;>
      simp [bandF, List.get?_concat_length, hxb]

theorem mem_bandIdsL {bl : List Band} {b : Band} {i : Nat}
    (h : i ∈ bandIdsL bl b) : bl.get? i = some b := by
  unfold bandIdsL at h
  have := List.of_mem_filter h
  simpa [bandF] using this

/-- Splitting Buffer.Push: whichever path Push takes, the band's pending
contents (delivery channel, then overflow stage) are extended by the new
item at the back. -/
theorem bandPush_parts (cap : Nat) (b : BandBuf) (x : Nat) :
    (bandPush cap b x).ch ++ (bandPush cap b x).ovf =
      (b.ch ++ b.ovf) ++ [x] := by
  unfold bandPush
  by_cases hc :
      (!b.buffering && b.ovf.isEmpty && decide (b.ch.length < cap)) = true
  · rw [if_pos hc]
    have h2 := hc
    simp only [Bool.and_eq_true] at h2
    have hovf : b.ovf = [] := List.isEmpty_iff.mp h2.1.2
    show (b.ch ++ [x]) ++ b.ovf = (b.ch ++ b.ovf) ++ [x]
    rw [hovf]
    simp
  · rw [if_neg hc]
    show b.ch ++ (b.ovf ++ [x]) = (b.ch ++ b.ovf) ++ [x]
    rw [List.append_assoc]

/-- The per-band bookkeeping invariant of the reactor consumer: all
recorded ids are in range, and for each band the dispatch observations
followed by the band's pending contents (delivery channel, then
overflow stage) equal the submission order of that band. -/
theorem rreach_inv (cap : Nat) (s : RState) (h : Reach cap s) :
    (∀ i ∈ s.obs, i < s.bands.length) ∧
    (∀ i ∈ s.priB.ch ++ s.priB.ovf, i < s.bands.length) ∧
    (∀ i ∈ s.primB.ch ++ s.primB.ovf, i < s.bands.length) ∧
    (∀ b, obsB s b ++ pendOf s b = bandIds s b) := by
  induction h with
  | init =>
      refine ⟨by simp [init, emptyBand], by simp [init, emptyBand],
        by simp [init, emptyBand], ?_⟩
      intro b
      cases b <;>
        simp [obsB, bandIds, bandIdsL, pendOf, chOf, ovfOf, init, emptyBand]
  | step hr hs ih =>
      rename_i s1 s2 l
      obtain ⟨ho, hp, hm, heq⟩ := ih
      have heqP := heq Band.pri
      have heqM := heq Band.prim
      simp only [pendOf, chOf, ovfOf] at heqP heqM
      cases hs with
      | pushPri =>
          have hparts := bandPush_parts cap s1.priB s1.bands.length
          refine ⟨?_, ?_, ?_, ?_⟩
          · intro i hi
            simp only [List.length_append, List.length_singleton]
            exact Nat.lt_succ_of_lt (ho i hi)
          · intro i hi
            have hi2 : i ∈ (bandPush cap s1.priB s1.bands.length).ch ++
                (bandPush cap s1.priB s1.bands.length).ovf := hi
            rw [hparts] at hi2
            simp only [List.length_append, List.length_singleton]
            rcases List.mem_append.mp hi2 with hi3 | hi3
            · exact Nat.lt_succ_of_lt (hp i hi3)
            · have : i = s1.bands.length := by simpa using hi3
              omega
          · intro i hi
            simp only [List.length_append, List.length_singleton]
            exact Nat.lt_succ_of_lt (hm i hi)
          · intro b
            have hob : s1.obs.filter (bandF (s1.bands ++ [Band.pri]) b) =
                s1.obs.filter (bandF s1.bands b) :=
              filter_bandF_concat s1.bands Band.pri b s1.obs ho
            show s1.obs.filter (bandF (s1.bands ++ [Band.pri]) b) ++ _ =
              bandIdsL (s1.bands ++ [Band.pri]) b
            rw [hob, bandIdsL_concat]
            cases b with
            | pri =>
                rw [if_pos rfl]
                show s1.obs.filter (bandF s1.bands Band.pri) ++
                    ((bandPush cap s1.priB s1.bands.length).ch ++
                      (bandPush cap s1.priB s1.bands.length).ovf) =
                  bandIdsL s1.bands Band.pri ++ [s1.bands.length]
                rw [hparts, ← List.append_assoc]
                show (obsB s1 Band.pri ++ (s1.priB.ch ++ s1.priB.ovf)) ++
                  [s1.bands.length] = _
                rw [heqP]
                rfl
            | prim =>
                rw [if_neg (by simp)]
                show s1.obs.filter (bandF s1.bands Band.prim) ++
                    (s1.primB.ch ++ s1.primB.ovf) =
                  bandIdsL s1.bands Band.prim ++ []
                rw [List.append_nil]
                exact heqM
      | pushPrim =>
          have hparts := bandPush_parts cap s1.primB s1.bands.length
          refine ⟨?_, ?_, ?_, ?_⟩
          · intro i hi
            simp only [List.length_append, List.length_singleton]
            exact Nat.lt_succ_of_lt (ho i hi)
          · intro i hi
            simp only [List.length_append, List.length_singleton]
            exact Nat.lt_succ_of_lt (hp i hi)
          · intro i hi
            have hi2 : i ∈ (bandPush cap s1.primB s1.bands.length).ch ++
                (bandPush cap s1.primB s1.bands.length).ovf := hi
            rw [hparts] at hi2
            simp only [List.length_append, List.length_singleton]
            rcases List.mem_append.mp hi2 with hi3 | hi3
            · exact Nat.lt_succ_of_lt (hm i hi3)
            · have : i = s1.bands.length := by simpa using hi3
              omega
          · intro b
            have hob : s1.obs.filter (bandF (s1.bands ++ [Band.prim]) b) =
                s1.obs.filter (bandF s1.bands b) :=
              filter_bandF_concat s1.bands Band.prim b s1.obs ho
            show s1.obs.filter (bandF (s1.bands ++ [Band.prim]) b) ++ _ =
              bandIdsL (s1.bands ++ [Band.prim]) b
            rw [hob, bandIdsL_concat]
            cases b with
            | pri =>
                rw [if_neg (by simp)]
                show s1.obs.filter (bandF s1.bands Band.pri) ++
                    (s1.priB.ch ++ s1.priB.ovf) =
                  bandIdsL s1.bands Band.pri ++ []
                rw [List.append_nil]
                exact heqP
            | prim =>
                rw [if_pos rfl]
                show s1.obs.filter (bandF s1.bands Band.prim) ++
                    ((bandPush cap s1.primB s1.bands.length).ch ++
                      (bandPush cap s1.primB s1.bands.length).ovf) =
                  bandIdsL s1.bands Band.prim ++ [s1.bands.length]
                rw [hparts, ← List.append_assoc]
                show (obsB s1 Band.prim ++ (s1.primB.ch ++ s1.primB.ovf)) ++
                  [s1.bands.length] = _
                rw [heqM]
                rfl
      | drainPri x t hbuf hovf hlen =>
          refine ⟨ho, ?_, hm, ?_⟩
          · intro i hi
            have hi2 : i ∈ (s1.priB.ch ++ [x]) ++ t := hi
            apply hp i
            rw [hovf]
            simp only [List.mem_append, List.mem_cons,
              List.mem_singleton] at hi2 ⊢
            tauto
          · intro b
            cases b with
            | pri =>
                show obsB s1 Band.pri ++ ((s1.priB.ch ++ [x]) ++ t) =
                  bandIds s1 Band.pri
                have h2 : (s1.priB.ch ++ [x]) ++ t =
                    s1.priB.ch ++ s1.priB.ovf := by
                  rw [List.append_assoc, List.singleton_append, hovf]
                rw [h2]
                exact heqP
            | prim =>
                show obsB s1 Band.prim ++
                    (s1.primB.ch ++ s1.primB.ovf) =
                  bandIds s1 Band.prim
                exact heqM
      | drainPrim x t hbuf hovf hlen =>
          refine ⟨ho, hp, ?_, ?_⟩
          · intro i hi
            have hi2 : i ∈ (s1.primB.ch ++ [x]) ++ t := hi
            apply hm i
            rw [hovf]
            simp only [List.mem_append, List.mem_cons,
              List.mem_singleton] at hi2 ⊢
            tauto
          · intro b
            cases b with
            | pri =>
                show obsB s1 Band.pri ++
                    (s1.priB.ch ++ s1.priB.ovf) =
                  bandIds s1 Band.pri
                exact heqP
            | prim =>
                show obsB s1 Band.prim ++ ((s1.primB.ch ++ [x]) ++ t) =
                  bandIds s1 Band.prim
                have h2 : (s1.primB.ch ++ [x]) ++ t =
                    s1.primB.ch ++ s1.primB.ovf := by
                  rw [List.append_assoc, List.singleton_append, hovf]
                rw [h2]
                exact heqM
      | idlePri hbuf hovf =>
          refine ⟨ho, hp, hm, ?_⟩
          intro b
          cases b with
          | pri =>
              show obsB s1 Band.pri ++ (s1.priB.ch ++ s1.priB.ovf) =
                bandIds s1 Band.pri
              exact heqP
          | prim =>
              show obsB s1 Band.prim ++ (s1.primB.ch ++ s1.primB.ovf) =
                bandIds s1 Band.prim
              exact heqM
      | idlePrim hbuf hovf =>
          refine ⟨ho, hp, hm, ?_⟩
          intro b
          cases b with
          | pri =>
              show obsB s1 Band.pri ++ (s1.priB.ch ++ s1.priB.ovf) =
                bandIds s1 Band.pri
              exact heqP
          | prim =>
              show obsB s1 Band.prim ++ (s1.primB.ch ++ s1.primB.ovf) =
                bandIds s1 Band.prim
              exact heqM
      | startPri x t hrun hq =>
          have hxband : s1.bands.get? x = some Band.pri := by
            have hxmem : x ∈ bandIds s1 Band.pri := by
              rw [← heqP]
              refine List.mem_append.mpr (Or.inr ?_)
              rw [hq]
              simp
            exact mem_bandIdsL hxmem
          refine ⟨?_, ?_, hm, ?_⟩
          · intro i hi
            rcases List.mem_append.mp hi with hi2 | hi2
            · exact ho i hi2
            · rw [show i = x by simpa using hi2]
              apply hp x
              rw [hq]
              simp
          · intro i hi
            have hi2 : i ∈ t ++ s1.priB.ovf := hi
            apply hp i
            rw [hq]
            simp only [List.mem_append, List.mem_cons] at hi2 ⊢
            tauto
          · intro b
            show (s1.obs ++ [x]).filter (bandF s1.bands b) ++ _ =
              bandIdsL s1.bands b
            rw [List.filter_append]
            cases b with
            | pri =>
                have hx2 : s1.bands[x]? = some Band.pri := by
                  rw [← List.get?_eq_getElem?]
                  exact hxband
                have hfx : [x].filter (bandF s1.bands Band.pri) = [x] := by
                  simp [bandF, hx2]
                rw [hfx]
                show (s1.obs.filter (bandF s1.bands Band.pri) ++ [x]) ++
                  (t ++ s1.priB.ovf) = _
                rw [List.append_assoc]
                show obsB s1 Band.pri ++ ([x] ++ (t ++ s1.priB.ovf)) = _
                have h3 : [x] ++ (t ++ s1.priB.ovf) =
                    s1.priB.ch ++ s1.priB.ovf := by
                  rw [hq]
                  simp
                rw [h3]
                exact heqP
            | prim =>
                have hx2 : s1.bands[x]? = some Band.pri := by
                  rw [← List.get?_eq_getElem?]
                  exact hxband
                have hfx : [x].filter (bandF s1.bands Band.prim) = [] := by
                  simp [bandF, hx2]
                rw [hfx]
                show (s1.obs.filter (bandF s1.bands Band.prim) ++ []) ++
                  (s1.primB.ch ++ s1.primB.ovf) = _
                rw [List.append_nil]
                exact heqM
      | startPrim x t hrun hsup hq =>
          have hxband : s1.bands.get? x = some Band.prim := by
            have hxmem : x ∈ bandIds s1 Band.prim := by
              rw [← heqM]
              refine List.mem_append.mpr (Or.inr ?_)
              rw [hq]
              simp
            exact mem_bandIdsL hxmem
          refine ⟨?_, hp, ?_, ?_⟩
          · intro i hi
            rcases List.mem_append.mp hi with hi2 | hi2
            · exact ho i hi2
            · rw [show i = x by simpa using hi2]
              apply hm x
              rw [hq]
              simp
          · intro i hi
            have hi2 : i ∈ t ++ s1.primB.ovf := hi
            apply hm i
            rw [hq]
            simp only [List.mem_append, List.mem_cons] at hi2 ⊢
            tauto
          · intro b
            show (s1.obs ++ [x]).filter (bandF s1.bands b) ++ _ =
              bandIdsL s1.bands b
            rw [List.filter_append]
            cases b with
            | pri =>
                have hx2 : s1.bands[x]? = some Band.prim := by
                  rw [← List.get?_eq_getElem?]
                  exact hxband
                have hfx : [x].filter (bandF s1.bands Band.pri) = [] := by
                  simp [bandF, hx2]
                rw [hfx]
                show (s1.obs.filter (bandF s1.bands Band.pri) ++ []) ++
                  (s1.priB.ch ++ s1.priB.ovf) = _
                rw [List.append_nil]
                exact heqP
            | prim =>
                have hx2 : s1.bands[x]? = some Band.prim := by
                  rw [← List.get?_eq_getElem?]
                  exact hxband
                have hfx : [x].filter (bandF s1.bands Band.prim) = [x] := by
                  simp [bandF, hx2]
                rw [hfx]
                show (s1.obs.filter (bandF s1.bands Band.prim) ++ [x]) ++
                  (t ++ s1.primB.ovf) = _
                rw [List.append_assoc]
                show obsB s1 Band.prim ++ ([x] ++ (t ++ s1.primB.ovf)) = _
                have h3 : [x] ++ (t ++ s1.primB.ovf) =
                    s1.primB.ch ++ s1.primB.ovf := by
                  rw [hq]
                  simp
                rw [h3]
                exact heqM
      | finish x hrun =>
          refine ⟨ho, hp, hm, ?_⟩
          intro b
          cases b with
          | pri =>
              show obsB s1 Band.pri ++ (s1.priB.ch ++ s1.priB.ovf) =
                bandIds s1 Band.pri
              exact heqP
          | prim =>
              show obsB s1 Band.prim ++ (s1.primB.ch ++ s1.primB.ovf) =
                bandIds s1 Band.prim
              exact heqM

/-- Reaching sBothReady: at the reactor's default channel capacity 128
both pushes take Push's fast path into the delivery channels. -/
theorem reach_sBothReady : Reach 128 sBothReady := by
  have h0 : Reach 128 init := Reach.init
  have h1 : Reach 128
      { priB := { ch := [0], ovf := [], buffering := false },
        primB := emptyBand, bands := [Band.pri],
        suppress := false, running := none, obs := [] } :=
    h0.step (RStep.pushPri init)
  exact h1.step (RStep.pushPrim _)

/-- Reaching sOvfPend: with channel capacity 1, pushing two priority
tasks puts the first in the channel and the second in the overflow
stage; dispatching and finishing the first then leaves suppression
unarmed (the channel is empty although the overflow is not), and a
pushed primary task is ready in its channel. -/
theorem reach_sOvfPend : Reach 1 sOvfPend := by
  have h0 : Reach 1 init := Reach.init
  have h1 : Reach 1
      { priB := { ch := [0], ovf := [], buffering := false },
        primB := emptyBand, bands := [Band.pri],
        suppress := false, running := none, obs := [] } :=
    h0.step (RStep.pushPri init)
  have h2 : Reach 1
      { priB := { ch := [0], ovf := [1], buffering := true },
        primB := emptyBand, bands := [Band.pri, Band.pri],
        suppress := false, running := none, obs := [] } :=
    h1.step (RStep.pushPri _)
  have h3 : Reach 1
      { priB := { ch := [], ovf := [1], buffering := true },
        primB := emptyBand, bands := [Band.pri, Band.pri],
        suppress := false, running := some 0, obs := [0] } :=
    h2.step (RStep.startPri _ 0 [] rfl rfl)
  have h4 : Reach 1
      { priB := { ch := [], ovf := [1], buffering := true },
        primB := emptyBand, bands := [Band.pri, Band.pri],
        suppress := false, running := none, obs := [0] } :=
    h3.step (RStep.finish _ 0 rfl)
  exact h4.step (RStep.pushPrim _)

/-- The post-task check of Reactor.running reads only the length of the
priority delivery channel, so a priority submission still in the
elastic buffer's overflow stage when a task finishes does not arm
suppression: from the reachable state sOvfPend (priority submission 1
in the overflow, none in the channel, suppression unarmed after a
finish) the select may dispatch the primary submission 2 ahead of
it. -/
theorem overflow_transit_miss :
    Reach 1 sOvfPend ∧ sOvfPend.priB.ovf ≠ [] ∧
    sOvfPend.suppress = false ∧
    RStep 1 sOvfPend (RLabel.start 2) sOvfMissTaken ∧
    sOvfPend.bands.get? 2 = some Band.prim := by
  refine ⟨reach_sOvfPend, by decide, rfl, ?_, by decide⟩
  exact RStep.startPrim sOvfPend 2 [] rfl rfl rfl

/-- Claim C3 counterexample: with one priority and one primary
submission both sitting in their delivery channels and no suppression
armed (for instance at the first dispatch after Start), the select of
Reactor.running may commit to the primary case, so a dispatch step
running a primary task while the priority delivery channel is non-empty
is reachable. -/
theorem c3_counterexample :
    Reach 128 sBothReady ∧ sBothReady.priB.ch ≠ [] ∧
    RStep 128 sBothReady (RLabel.start 1) sPrimTaken ∧
    sBothReady.bands.get? 1 = some Band.prim := by
  refine ⟨reach_sBothReady, by decide, ?_, by decide⟩
  exact RStep.startPrim sBothReady 1 [] rfl rfl rfl

/-- Claim C3 (amended): the consumer runs priority submissions in FIFO
order among themselves and primary submissions in FIFO order among
themselves, across both stages of each band's elastic buffer (the
dispatch observations of each band, followed by that band's delivery
channel and then its overflow stage, equal the band's submission
order); and the tie-break is exactly the implemented one: the post-task
check reads only the length of the priority delivery channel, so
suppression is armed after a task if and only if that channel is then
non-empty, a dispatch under armed suppression is a priority task, and a
priority submission that has reached the delivery channel when the
running task finishes is dispatched before any further primary task;
but a priority submission still in the overflow stage does not arm
suppression, and at a dispatch step with no suppression armed the
select may pick either non-empty delivery channel. -/
theorem c3_amended (cap : Nat) (s : RState) (h : Reach cap s) :
    (obsB s Band.pri ++ pendOf s Band.pri = bandIds s Band.pri) ∧
    (obsB s Band.prim ++ pendOf s Band.prim = bandIds s Band.prim) ∧
    (∀ i s', RStep cap s (RLabel.start i) s' → s.suppress = true →
      s.bands.get? i = some Band.pri) ∧
    (∀ s', RStep cap s RLabel.finish s' →
      s'.suppress = (!s.priB.ch.isEmpty)) ∧
    (∀ s' s'' j, RStep cap s RLabel.finish s' →
      s.priB.ch.isEmpty = false →
      RStep cap s' (RLabel.start j) s'' →
      s.bands.get? j = some Band.pri) := by
  obtain ⟨ho, hp, hm, heq⟩ := rreach_inv cap s h
  refine ⟨heq Band.pri, heq Band.prim, ?_, ?_, ?_⟩
  · intro i s' hstep hsup
    cases hstep with
    | startPri x t hrun hq =>
        have hxmem : i ∈ bandIds s Band.pri := by
          rw [← heq Band.pri]
          refine List.mem_append.mpr (Or.inr ?_)
          show i ∈ s.priB.ch ++ s.priB.ovf
          rw [hq]
          simp
        exact mem_bandIdsL hxmem
    | startPrim x t hrun hsup2 hq =>
        rw [hsup] at hsup2
        exact Bool.noConfusion hsup2
  · intro s' hstep
    cases hstep with
    | finish x hrun => rfl
  · intro s' s'' j hfin hch hstart
    cases hfin with
    | finish x hrun =>
        cases hstart with
        | startPri y t2 hrun2 hq2 =>
            have hq3 : s.priB.ch = j :: t2 := hq2
            have hxmem : j ∈ bandIds s Band.pri := by
              rw [← heq Band.pri]
              refine List.mem_append.mpr (Or.inr ?_)
              show j ∈ s.priB.ch ++ s.priB.ovf
              rw [hq3]
              simp
            exact mem_bandIdsL hxmem
        | startPrim y t2 hrun2 hsup2 hq2 =>
            have hsup3 : (!s.priB.ch.isEmpty) = false := hsup2
            rw [hch] at hsup3
            exact Bool.noConfusion hsup3

/-- Witness for c3_amended at the reachable two-submission state. -/
theorem c3_amended_witness :
    Reach 128 sBothReady ∧
    (obsB sBothReady Band.pri ++ pendOf sBothReady Band.pri =
      bandIds sBothReady Band.pri) := by
  exact ⟨reach_sBothReady,
    (c3_amended 128 sBothReady reach_sBothReady).1⟩

end ReactorOrd

namespace ReactorLife

theorem cancelAll_length (ts : List TStatus) (ids : List Nat) :
    (cancelAll ts ids).length = ts.length := by
  induction ids generalizing ts with
  | nil => rfl
  | cons a rest ih =>
      show (cancelAll (ts.set a TStatus.canceledHC) rest).length = ts.length
      rw [ih]
      exact List.length_set ts a _

theorem cancelAll_get?_not_mem (ts : List TStatus) (ids : List Nat) (i : Nat)
    (h : i ∉ ids) : (cancelAll ts ids).get? i = ts.get? i := by
  induction ids generalizing ts with
  | nil => rfl
  | cons a rest ih =>
      have hne : i ≠ a := fun hc => h (by simp [hc])
      have hrest : i ∉ rest := fun hc => h (by simp [hc])
      show (cancelAll (ts.set a TStatus.canceledHC) rest).get? i = ts.get? i
      rw [ih _ hrest]
      exact MCtxM.get?_set_ne ts i a _ hne

theorem cancelAll_get?_mem (ts : List TStatus) (ids : List Nat) (i : Nat)
    (hmem : i ∈ ids) (hlt : i < ts.length) :
    (cancelAll ts ids).get? i = some TStatus.canceledHC := by
  induction ids generalizing ts with
  | nil => simp at hmem
  | cons a rest ih =>
      show (cancelAll (ts.set a TStatus.canceledHC) rest).get? i = _
      by_cases hr : i ∈ rest
      · exact ih _ hr (by rw [List.length_set]; exact hlt)
      · have hia : i = a := by
          rcases List.mem_cons.mp hmem with h1 | h1
          · exact h1
          · exact absurd h1 hr
        subst hia
        rw [cancelAll_get?_not_mem _ _ _ hr]
        exact MCtxM.get?_set_self ts i _ hlt

theorem get?_concat_other {α : Type} (l : List α) (x : α) (i : Nat)
    (h : i ≠ l.length) : (l ++ [x]).get? i = l.get? i := by
  by_cases hi : i < l.length
  · exact List.get?_append hi
  · have h1 : l.length ≤ i := Nat.le_of_not_lt hi
    have h2 : (l ++ [x]).length ≤ i := by
      simp only [List.length_append, List.length_singleton]
      omega
    rw [List.get?_eq_none.mpr h1, List.get?_eq_none.mpr h2]

end ReactorLife

namespace ReactorLife

theorem linv_push_pri (s : LState) (h : LInv s) (hph : s.phase = Phase.run) :
    LInv { s with priQ := s.priQ ++ [s.tasks.length],
                  tasks := s.tasks ++ [TStatus.pending] } := by
  have hgn : (s.tasks ++ [TStatus.pending]).get? s.tasks.length =
      some TStatus.pending := List.get?_concat_length _ _
  constructor
  · intro i hi
    simp only [List.length_append, List.length_singleton]
    exact Nat.lt_succ_of_lt (h.obBound i hi)
  · intro i hi
    simp only [List.length_append, List.length_singleton]
    rcases List.mem_append.mp hi with h1 | h1
    · exact Nat.lt_succ_of_lt (h.priBound i h1)
    · have : i = s.tasks.length := by simpa using h1
      omega
  · intro i hi
    simp only [List.length_append, List.length_singleton]
    exact Nat.lt_succ_of_lt (h.primBound i hi)
  · intro x hx
    simp only [List.length_append, List.length_singleton]
    exact Nat.lt_succ_of_lt (h.runBound x hx)
  · intro i
    show (s.priQ ++ [s.tasks.length]).count i + s.primQ.count i +
      (if s.running = some i then 1 else 0) ≤ 1
    rw [List.count_append]
    by_cases hin : i = s.tasks.length
    · have hc1 : s.priQ.count i = 0 := by
        rw [List.count_eq_zero]
        intro hmem
        have := h.priBound i hmem
        omega
      have hc2 : s.primQ.count i = 0 := by
        rw [List.count_eq_zero]
        intro hmem
        have := h.primBound i hmem
        omega
      have hc3 : (if s.running = some i then 1 else 0) = 0 := by
        by_cases hr : s.running = some i
        · have := h.runBound i hr
          omega
        · simp [hr]
      have hc4 : List.count i [s.tasks.length] = 1 := by
        rw [hin]
        simp
      omega
    · have hc : List.count i [s.tasks.length] = 0 := by
        simp [List.count_cons, hin]
      have := h.uniq i
      omega
  · intro i hi
    simp only [List.length_append, List.length_singleton] at hi
    by_cases hin : i = s.tasks.length
    · subst hin
      rw [hgn]
      simp
    · have hi3 : i < s.tasks.length := by omega
      rw [get?_concat_other _ _ _ hin]
      rw [h.pendingIff i hi3]
      simp [List.mem_append, hin]
  · intro i
    by_cases hin : i = s.tasks.length
    · subst hin
      constructor
      · intro hmem
        exact absurd (h.obBound _ hmem) (lt_irrefl _)
      · intro hr
        rcases hr with hr | hr
        · rw [hgn] at hr
          exact absurd (Option.some_inj.mp hr) (by simp)
        · exact absurd (h.runBound _ hr) (lt_irrefl _)
    · rw [get?_concat_other _ _ _ hin]
      exact h.obsIff i
  · exact h.obsNodup
  · intro h2
    rcases h2 with h2 | h2 | h2 <;> simp [hph] at h2
  · intro h2
    rcases h2 with h2 | h2 <;> simp [hph] at h2
  · intro h2
    simp [hph] at h2

theorem linv_push_prim (s : LState) (h : LInv s) (hph : s.phase = Phase.run) :
    LInv { s with primQ := s.primQ ++ [s.tasks.length],
                  tasks := s.tasks ++ [TStatus.pending] } := by
  have hgn : (s.tasks ++ [TStatus.pending]).get? s.tasks.length =
      some TStatus.pending := List.get?_concat_length _ _
  constructor
  · intro i hi
    simp only [List.length_append, List.length_singleton]
    exact Nat.lt_succ_of_lt (h.obBound i hi)
  · intro i hi
    simp only [List.length_append, List.length_singleton]
    exact Nat.lt_succ_of_lt (h.priBound i hi)
  · intro i hi
    simp only [List.length_append, List.length_singleton]
    rcases List.mem_append.mp hi with h1 | h1
    · exact Nat.lt_succ_of_lt (h.primBound i h1)
    · have : i = s.tasks.length := by simpa using h1
      omega
  · intro x hx
    simp only [List.length_append, List.length_singleton]
    exact Nat.lt_succ_of_lt (h.runBound x hx)
  · intro i
    show s.priQ.count i + (s.primQ ++ [s.tasks.length]).count i +
      (if s.running = some i then 1 else 0) ≤ 1
    rw [List.count_append]
    by_cases hin : i = s.tasks.length
    · have hc1 : s.priQ.count i = 0 := by
        rw [List.count_eq_zero]
        intro hmem
        have := h.priBound i hmem
        omega
      have hc2 : s.primQ.count i = 0 := by
        rw [List.count_eq_zero]
        intro hmem
        have := h.primBound i hmem
        omega
      have hc3 : (if s.running = some i then 1 else 0) = 0 := by
        by_cases hr : s.running = some i
        · have := h.runBound i hr
          omega
        · simp [hr]
      have hc4 : List.count i [s.tasks.length] = 1 := by
        rw [hin]
        simp
      omega
    · have hc : List.count i [s.tasks.length] = 0 := by
        simp [List.count_cons, hin]
      have := h.uniq i
      omega
  · intro i hi
    simp only [List.length_append, List.length_singleton] at hi
    by_cases hin : i = s.tasks.length
    · subst hin
      rw [hgn]
      simp
    · have hi3 : i < s.tasks.length := by omega
      rw [get?_concat_other _ _ _ hin]
      rw [h.pendingIff i hi3]
      simp [List.mem_append, hin]
  · intro i
    by_cases hin : i = s.tasks.length
    · subst hin
      constructor
      · intro hmem
        exact absurd (h.obBound _ hmem) (lt_irrefl _)
      · intro hr
        rcases hr with hr | hr
        · rw [hgn] at hr
          exact absurd (Option.some_inj.mp hr) (by simp)
        · exact absurd (h.runBound _ hr) (lt_irrefl _)
    · rw [get?_concat_other _ _ _ hin]
      exact h.obsIff i
  · exact h.obsNodup
  · intro h2
    rcases h2 with h2 | h2 | h2 <;> simp [hph] at h2
  · intro h2
    rcases h2 with h2 | h2 <;> simp [hph] at h2
  · intro h2
    simp [hph] at h2

end ReactorLife

namespace ReactorLife

theorem linv_start_pri (s : LState) (h : LInv s) (x : Nat) (t : List Nat)
    (hrun : s.running = none)
    (hph : s.phase = Phase.run ∨ s.phase = Phase.stop1)
    (hq : s.priQ = x :: t) :
    LInv { s with priQ := t, running := some x, obs := s.obs ++ [x] } := by
  have hxlen : x < s.tasks.length := h.priBound x (by simp [hq])
  have hxpend : s.tasks.get? x = some TStatus.pending :=
    (h.pendingIff x hxlen).mpr (Or.inl (by simp [hq]))
  have hxnobs : x ∉ s.obs := by
    intro hmem
    rcases (h.obsIff x).mp hmem with h1 | h1
    · rw [hxpend] at h1
      exact absurd (Option.some_inj.mp h1) (by simp)
    · rw [hrun] at h1
      exact Option.noConfusion h1
  constructor
  · intro i hi
    rcases List.mem_append.mp hi with h1 | h1
    · exact h.obBound i h1
    · have hix : i = x := by simpa using h1
      rw [hix]
      exact hxlen
  · intro i hi
    exact h.priBound i (by simp [hq, hi])
  · exact h.primBound
  · intro y hy
    have hxy : x = y := Option.some_inj.mp hy
    rw [← hxy]
    exact hxlen
  · intro i
    have hu := h.uniq i
    rw [hq, hrun] at hu
    have hz : (if (none : Option Nat) = some i then 1 else 0) = 0 := by simp
    rw [hz] at hu
    show t.count i + s.primQ.count i +
      (if some x = some i then 1 else 0) ≤ 1
    by_cases hix : i = x
    · have h1 : (x :: t).count i = t.count i + 1 := by
        rw [hix]
        simp [List.count_cons]
      have h2 : (if some x = some i then 1 else 0) = 1 :=
        if_pos (by rw [hix])
      rw [h1] at hu
      rw [h2]
      omega
    · have h1 : (x :: t).count i = t.count i := by
        simp [List.count_cons, beq_iff_eq, Ne.symm hix]
      have h2 : (if some x = some i then 1 else 0) = 0 :=
        if_neg (fun hc => hix (Option.some_inj.mp hc).symm)
      rw [h1] at hu
      rw [h2]
      omega
  · intro i hi
    rw [h.pendingIff i hi]
    constructor
    · rintro (h1 | h1 | h1)
      · rw [hq] at h1
        rcases List.mem_cons.mp h1 with h2 | h2
        · exact Or.inr (Or.inr (by rw [h2]))
        · exact Or.inl h2
      · exact Or.inr (Or.inl h1)
      · rw [hrun] at h1
        exact Option.noConfusion h1
    · rintro (h1 | h1 | h1)
      · exact Or.inl (by rw [hq]; exact List.mem_cons_of_mem _ h1)
      · exact Or.inr (Or.inl h1)
      · refine Or.inl ?_
        rw [hq, show i = x from (Option.some_inj.mp h1).symm]
        simp
  · intro i
    by_cases hix : i = x
    · constructor
      · intro _
        exact Or.inr (by rw [hix])
      · intro _
        simp [hix]
    · constructor
      · intro hmem
        rcases List.mem_append.mp hmem with h1 | h1
        · rcases (h.obsIff i).mp h1 with h2 | h2
          · exact Or.inl h2
          · rw [hrun] at h2
            exact Option.noConfusion h2
        · exact absurd (by simpa using h1) hix
      · rintro (h1 | h1)
        · exact List.mem_append.mpr (Or.inl ((h.obsIff i).mpr (Or.inl h1)))
        · exact absurd (Option.some_inj.mp h1).symm hix
  · rw [List.nodup_append]
    refine ⟨h.obsNodup, List.nodup_singleton x, ?_⟩
    intro a ha hb
    have hax : a = x := by simpa using hb
    rw [hax] at ha
    exact hxnobs ha
  · intro h2
    rcases hph with hp | hp <;> rcases h2 with h2 | h2 | h2 <;> simp [hp] at h2
  · intro h2
    rcases hph with hp | hp <;> rcases h2 with h2 | h2 <;> simp [hp] at h2
  · intro h2
    rcases hph with hp | hp <;> simp [hp] at h2

theorem linv_start_prim (s : LState) (h : LInv s) (x : Nat) (t : List Nat)
    (hrun : s.running = none)
    (hph : s.phase = Phase.run ∨ s.phase = Phase.stop1)
    (hq : s.primQ = x :: t) :
    LInv { s with primQ := t, running := some x, obs := s.obs ++ [x] } := by
  have hxlen : x < s.tasks.length := h.primBound x (by simp [hq])
  have hxpend : s.tasks.get? x = some TStatus.pending :=
    (h.pendingIff x hxlen).mpr (Or.inr (Or.inl (by simp [hq])))
  have hxnobs : x ∉ s.obs := by
    intro hmem
    rcases (h.obsIff x).mp hmem with h1 | h1
    · rw [hxpend] at h1
      exact absurd (Option.some_inj.mp h1) (by simp)
    · rw [hrun] at h1
      exact Option.noConfusion h1
  constructor
  · intro i hi
    rcases List.mem_append.mp hi with h1 | h1
    · exact h.obBound i h1
    · have hix : i = x := by simpa using h1
      rw [hix]
      exact hxlen
  · exact h.priBound
  · intro i hi
    exact h.primBound i (by simp [hq, hi])
  · intro y hy
    have hxy : x = y := Option.some_inj.mp hy
    rw [← hxy]
    exact hxlen
  · intro i
    have hu := h.uniq i
    rw [hq, hrun] at hu
    have hz : (if (none : Option Nat) = some i then 1 else 0) = 0 := by simp
    rw [hz] at hu
    show s.priQ.count i + t.count i +
      (if some x = some i then 1 else 0) ≤ 1
    by_cases hix : i = x
    · have h1 : (x :: t).count i = t.count i + 1 := by
        rw [hix]
        simp [List.count_cons]
      have h2 : (if some x = some i then 1 else 0) = 1 :=
        if_pos (by rw [hix])
      rw [h1] at hu
      rw [h2]
      omega
    · have h1 : (x :: t).count i = t.count i := by
        simp [List.count_cons, beq_iff_eq, Ne.symm hix]
      have h2 : (if some x = some i then 1 else 0) = 0 :=
        if_neg (fun hc => hix (Option.some_inj.mp hc).symm)
      rw [h1] at hu
      rw [h2]
      omega
  · intro i hi
    rw [h.pendingIff i hi]
    constructor
    · rintro (h1 | h1 | h1)
      · exact Or.inl h1
      · rw [hq] at h1
        rcases List.mem_cons.mp h1 with h2 | h2
        · exact Or.inr (Or.inr (by rw [h2]))
        · exact Or.inr (Or.inl h2)
      · rw [hrun] at h1
        exact Option.noConfusion h1
    · rintro (h1 | h1 | h1)
      · exact Or.inl h1
      · exact Or.inr (Or.inl (by rw [hq]; exact List.mem_cons_of_mem _ h1))
      · refine Or.inr (Or.inl ?_)
        rw [hq, show i = x from (Option.some_inj.mp h1).symm]
        simp
  · intro i
    by_cases hix : i = x
    · constructor
      · intro _
        exact Or.inr (by rw [hix])
      · intro _
        simp [hix]
    · constructor
      · intro hmem
        rcases List.mem_append.mp hmem with h1 | h1
        · rcases (h.obsIff i).mp h1 with h2 | h2
          · exact Or.inl h2
          · rw [hrun] at h2
            exact Option.noConfusion h2
        · exact absurd (by simpa using h1) hix
      · rintro (h1 | h1)
        · exact List.mem_append.mpr (Or.inl ((h.obsIff i).mpr (Or.inl h1)))
        · exact absurd (Option.some_inj.mp h1).symm hix
  · rw [List.nodup_append]
    refine ⟨h.obsNodup, List.nodup_singleton x, ?_⟩
    intro a ha hb
    have hax : a = x := by simpa using hb
    rw [hax] at ha
    exact hxnobs ha
  · intro h2
    rcases hph with hp | hp <;> rcases h2 with h2 | h2 | h2 <;> simp [hp] at h2
  · intro h2
    rcases hph with hp | hp <;> rcases h2 with h2 | h2 <;> simp [hp] at h2
  · intro h2
    rcases hph with hp | hp <;> simp [hp] at h2

end ReactorLife

namespace ReactorLife

theorem linv_run_end (s : LState) (h : LInv s) (x : Nat)
    (hrun : s.running = some x) :
    LInv { s with running := none, tasks := s.tasks.set x TStatus.ran } := by
  have hxlen : x < s.tasks.length := h.runBound x hrun
  have hxget : (s.tasks.set x TStatus.ran).get? x = some TStatus.ran :=
    MCtxM.get?_set_self _ _ _ hxlen
  have hu := h.uniq x
  rw [hrun, if_pos rfl] at hu
  have hxpri : x ∉ s.priQ := by
    intro hmem
    have hc := List.count_pos_iff.mpr hmem
    omega
  have hxprim : x ∉ s.primQ := by
    intro hmem
    have hc := List.count_pos_iff.mpr hmem
    omega
  constructor
  · intro i hi
    rw [List.length_set]
    exact h.obBound i hi
  · intro i hi
    rw [List.length_set]
    exact h.priBound i hi
  · intro i hi
    rw [List.length_set]
    exact h.primBound i hi
  · intro y hy
    exact Option.noConfusion hy
  · intro i
    have hui := h.uniq i
    show s.priQ.count i + s.primQ.count i +
      (if (none : Option Nat) = some i then 1 else 0) ≤ 1
    have hz : (if (none : Option Nat) = some i then 1 else 0) = 0 := by simp
    rw [hz]
    by_cases hri : s.running = some i
    · rw [if_pos hri] at hui
      omega
    · rw [if_neg hri] at hui
      omega
  · intro i hi
    rw [List.length_set] at hi
    by_cases hix : i = x
    · constructor
      · intro h1
        rw [hix, hxget] at h1
        exact absurd (Option.some_inj.mp h1) (by simp)
      · rintro (h1 | h1 | h1)
        · rw [hix] at h1
          exact absurd h1 hxpri
        · rw [hix] at h1
          exact absurd h1 hxprim
        · exact Option.noConfusion h1
    · rw [MCtxM.get?_set_ne _ _ _ _ hix]
      rw [h.pendingIff i hi]
      constructor
      · rintro (h1 | h1 | h1)
        · exact Or.inl h1
        · exact Or.inr (Or.inl h1)
        · rw [hrun] at h1
          exact absurd (Option.some_inj.mp h1).symm hix
      · rintro (h1 | h1 | h1)
        · exact Or.inl h1
        · exact Or.inr (Or.inl h1)
        · exact Option.noConfusion h1
  · intro i
    by_cases hix : i = x
    · constructor
      · intro _
        exact Or.inl (by rw [hix]; exact hxget)
      · intro _
        rw [hix]
        exact (h.obsIff x).mpr (Or.inr hrun)
    · rw [MCtxM.get?_set_ne _ _ _ _ hix]
      rw [h.obsIff i]
      constructor
      · rintro (h1 | h1)
        · exact Or.inl h1
        · rw [hrun] at h1
          exact absurd (Option.some_inj.mp h1).symm hix
      · rintro (h1 | h1)
        · exact Or.inl h1
        · exact Option.noConfusion h1
  · exact h.obsNodup
  · intro _
    rfl
  · exact h.priEmpty
  · exact h.primEmpty

theorem linv_stop_begin (s : LState) (h : LInv s)
    (hph : s.phase = Phase.run) : LInv { s with phase := Phase.stop1 } := by
  constructor
  · exact h.obBound
  · exact h.priBound
  · exact h.primBound
  · exact h.runBound
  · exact h.uniq
  · exact h.pendingIff
  · exact h.obsIff
  · exact h.obsNodup
  · intro h2
    rcases h2 with h2 | h2 | h2 <;> exact Phase.noConfusion h2
  · intro h2
    rcases h2 with h2 | h2 <;> exact Phase.noConfusion h2
  · intro h2
    exact Phase.noConfusion h2

theorem linv_consumer_exit (s : LState) (h : LInv s)
    (hph : s.phase = Phase.stop1) (hrun : s.running = none) :
    LInv { s with phase := Phase.stop2 } := by
  constructor
  · exact h.obBound
  · exact h.priBound
  · exact h.primBound
  · exact h.runBound
  · exact h.uniq
  · exact h.pendingIff
  · exact h.obsIff
  · exact h.obsNodup
  · intro _
    exact hrun
  · intro h2
    rcases h2 with h2 | h2 <;> exact Phase.noConfusion h2
  · intro h2
    exact Phase.noConfusion h2

theorem linv_drain_pri (s : LState) (h : LInv s)
    (hph : s.phase = Phase.stop2) :
    LInv { s with tasks := cancelAll s.tasks s.priQ, priQ := [],
                  phase := Phase.stop3 } := by
  have hrn : s.running = none := h.runNone (Or.inl hph)
  constructor
  · intro i hi
    rw [cancelAll_length]
    exact h.obBound i hi
  · intro i hi
    simp at hi
  · intro i hi
    rw [cancelAll_length]
    exact h.primBound i hi
  · intro y hy
    rw [hrn] at hy
    exact Option.noConfusion hy
  · intro i
    have hui := h.uniq i
    show List.count i [] + s.primQ.count i +
      (if s.running = some i then 1 else 0) ≤ 1
    have hz : List.count i ([] : List Nat) = 0 := rfl
    rw [hz]
    omega
  · intro i hi
    rw [cancelAll_length] at hi
    by_cases hmem : i ∈ s.priQ
    · rw [cancelAll_get?_mem _ _ _ hmem hi]
      constructor
      · intro h1
        exact absurd (Option.some_inj.mp h1) (by simp)
      · rintro (h1 | h1 | h1)
        · simp at h1
        · exfalso
          have h1b : i ∈ s.primQ := h1
          have hc1 := List.count_pos_iff.mpr hmem
          have hc2 := List.count_pos_iff.mpr h1b
          have hui := h.uniq i
          by_cases hri : s.running = some i
          · rw [if_pos hri] at hui
            omega
          · rw [if_neg hri] at hui
            omega
        · rw [hrn] at h1
          exact Option.noConfusion h1
    · rw [cancelAll_get?_not_mem _ _ _ hmem]
      rw [h.pendingIff i hi]
      constructor
      · rintro (h1 | h1 | h1)
        · exact absurd h1 hmem
        · exact Or.inr (Or.inl h1)
        · rw [hrn] at h1
          exact Option.noConfusion h1
      · rintro (h1 | h1 | h1)
        · simp at h1
        · exact Or.inr (Or.inl h1)
        · rw [hrn] at h1
          exact Option.noConfusion h1
  · intro i
    by_cases hmem : i ∈ s.priQ
    · have hilen : i < s.tasks.length := h.priBound i hmem
      have hpend := (h.pendingIff i hilen).mpr (Or.inl hmem)
      constructor
      · intro hob
        rcases (h.obsIff i).mp hob with h1 | h1
        · rw [hpend] at h1
          exact absurd (Option.some_inj.mp h1) (by simp)
        · rw [hrn] at h1
          exact Option.noConfusion h1
      · rintro (h1 | h1)
        · rw [cancelAll_get?_mem _ _ _ hmem hilen] at h1
          exact absurd (Option.some_inj.mp h1) (by simp)
        · rw [hrn] at h1
          exact Option.noConfusion h1
    · rw [cancelAll_get?_not_mem _ _ _ hmem]
      exact h.obsIff i
  · exact h.obsNodup
  · intro _
    exact hrn
  · intro _
    rfl
  · intro h2
    exact Phase.noConfusion h2

theorem linv_drain_prim (s : LState) (h : LInv s)
    (hph : s.phase = Phase.stop3) :
    LInv { s with tasks := cancelAll s.tasks s.primQ, primQ := [],
                  phase := Phase.stopFin } := by
  have hrn : s.running = none := h.runNone (Or.inr (Or.inl hph))
  have hpe : s.priQ = [] := h.priEmpty (Or.inl hph)
  constructor
  · intro i hi
    rw [cancelAll_length]
    exact h.obBound i hi
  · intro i hi
    rw [cancelAll_length]
    exact h.priBound i hi
  · intro i hi
    simp at hi
  · intro y hy
    rw [hrn] at hy
    exact Option.noConfusion hy
  · intro i
    have hui := h.uniq i
    show s.priQ.count i + List.count i [] +
      (if s.running = some i then 1 else 0) ≤ 1
    have hz : List.count i ([] : List Nat) = 0 := rfl
    rw [hz]
    omega
  · intro i hi
    rw [cancelAll_length] at hi
    by_cases hmem : i ∈ s.primQ
    · rw [cancelAll_get?_mem _ _ _ hmem hi]
      constructor
      · intro h1
        exact absurd (Option.some_inj.mp h1) (by simp)
      · rintro (h1 | h1 | h1)
        · rw [hpe] at h1
          simp at h1
        · simp at h1
        · rw [hrn] at h1
          exact Option.noConfusion h1
    · rw [cancelAll_get?_not_mem _ _ _ hmem]
      rw [h.pendingIff i hi]
      constructor
      · rintro (h1 | h1 | h1)
        · rw [hpe] at h1
          simp at h1
        · exact absurd h1 hmem
        · rw [hrn] at h1
          exact Option.noConfusion h1
      · rintro (h1 | h1 | h1)
        · exact Or.inl h1
        · simp at h1
        · rw [hrn] at h1
          exact Option.noConfusion h1
  · intro i
    by_cases hmem : i ∈ s.primQ
    · have hilen : i < s.tasks.length := h.primBound i hmem
      have hpend := (h.pendingIff i hilen).mpr (Or.inr (Or.inl hmem))
      constructor
      · intro hob
        rcases (h.obsIff i).mp hob with h1 | h1
        · rw [hpend] at h1
          exact absurd (Option.some_inj.mp h1) (by simp)
        · rw [hrn] at h1
          exact Option.noConfusion h1
      · rintro (h1 | h1)
        · rw [cancelAll_get?_mem _ _ _ hmem hilen] at h1
          exact absurd (Option.some_inj.mp h1) (by simp)
        · rw [hrn] at h1
          exact Option.noConfusion h1
    · rw [cancelAll_get?_not_mem _ _ _ hmem]
      exact h.obsIff i
  · exact h.obsNodup
  · intro _
    exact hrn
  · intro _
    exact hpe
  · intro _
    rfl

theorem linv_init : LInv init := by
  constructor <;> simp [init]

theorem linv_step {s s' : LState} (h : LInv s) (hs : LStep s s') :
    LInv s' := by
  cases hs with
  | pushPri hph => exact linv_push_pri s h hph
  | pushPrim hph => exact linv_push_prim s h hph
  | startPri x t hrun hph hq => exact linv_start_pri s h x t hrun hph hq
  | startPrim x t hrun hph hq => exact linv_start_prim s h x t hrun hph hq
  | runEnd x hrun => exact linv_run_end s h x hrun
  | stopBegin hph => exact linv_stop_begin s h hph
  | consumerExit hph hrun => exact linv_consumer_exit s h hph hrun
  | drainPri hph => exact linv_drain_pri s h hph
  | drainPrim hph => exact linv_drain_prim s h hph

theorem lreach_inv {s : LState} (h : Reach s) : LInv s := by
  induction h with
  | init => exact linv_init
  | step _ hs ih => exact linv_step ih hs

end ReactorLife

namespace ReactorLife

/-- Claim C4: for every reactor and every task accepted by Push,
PushPriority, Send or SendPriority, the task's handler runs exactly once
(its id appears exactly once in the dispatch sequence), or — when the
reactor stops before the task is dispatched — the task is instead marked
canceled exactly once with the typed HandlerCanceled error by the drain
of Stop, which runs after the cancel and the wait for the consumer to
exit and drains both queues; after Stop has returned every accepted task
is in one of these two terminal states (its completion token has fired),
and terminal states never change. -/
theorem c4_at_most_once (s : LState) (h : Reach s) :
    (s.phase = Phase.stopFin → ∀ i st, s.tasks.get? i = some st →
      st = TStatus.ran ∨ st = TStatus.canceledHC) ∧
    (∀ i, s.tasks.get? i = some TStatus.ran → s.obs.count i = 1) ∧
    (∀ i, s.tasks.get? i = some TStatus.canceledHC → s.obs.count i = 0) ∧
    (∀ s', LStep s s' → ∀ i st, st ≠ TStatus.pending →
      s.tasks.get? i = some st → s'.tasks.get? i = some st) := by
  have hinv := lreach_inv h
  refine ⟨?_, ?_, ?_, ?_⟩
  · intro hfin i st hget
    have hlt : i < s.tasks.length := by
      rcases List.get?_eq_some.mp hget with ⟨hl, _⟩
      exact hl
    cases st with
    | ran => exact Or.inl rfl
    | canceledHC => exact Or.inr rfl
    | pending =>
        exfalso
        have hmem := (hinv.pendingIff i hlt).mp hget
        rcases hmem with h1 | h1 | h1
        · rw [hinv.priEmpty (Or.inr hfin)] at h1
          simp at h1
        · rw [hinv.primEmpty hfin] at h1
          simp at h1
        · rw [hinv.runNone (Or.inr (Or.inr hfin))] at h1
          exact Option.noConfusion h1
  · intro i hget
    have hmem : i ∈ s.obs := (hinv.obsIff i).mpr (Or.inl hget)
    have hle := List.nodup_iff_count_le_one.mp hinv.obsNodup i
    have hpos := List.count_pos_iff.mpr hmem
    omega
  · intro i hget
    rw [List.count_eq_zero]
    intro hmem
    rcases (hinv.obsIff i).mp hmem with h1 | h1
    · rw [hget] at h1
      exact absurd (Option.some_inj.mp h1) (by simp)
    · have hlt := hinv.runBound i h1
      have hpend := (hinv.pendingIff i hlt).mpr (Or.inr (Or.inr h1))
      rw [hget] at hpend
      exact absurd (Option.some_inj.mp hpend) (by simp)
  · intro s' hs i st hst hget
    have hlt : i < s.tasks.length := by
      rcases List.get?_eq_some.mp hget with ⟨hl, _⟩
      exact hl
    cases hs with
    | pushPri hph =>
        show (s.tasks ++ [TStatus.pending]).get? i = some st
        rw [List.get?_append hlt]
        exact hget
    | pushPrim hph =>
        show (s.tasks ++ [TStatus.pending]).get? i = some st
        rw [List.get?_append hlt]
        exact hget
    | startPri x t hrun hph hq => exact hget
    | startPrim x t hrun hph hq => exact hget
    | runEnd x hrun =>
        by_cases hix : i = x
        · exfalso
          have hpend := (hinv.pendingIff i hlt).mpr
            (Or.inr (Or.inr (by rw [hix]; exact hrun)))
          rw [hget] at hpend
          exact hst (Option.some_inj.mp hpend)
        · show (s.tasks.set x TStatus.ran).get? i = some st
          rw [MCtxM.get?_set_ne _ _ _ _ hix]
          exact hget
    | stopBegin hph => exact hget
    | consumerExit hph hrun => exact hget
    | drainPri hph =>
        show (cancelAll s.tasks s.priQ).get? i = some st
        by_cases hmem : i ∈ s.priQ
        · exfalso
          have hpend := (hinv.pendingIff i hlt).mpr (Or.inl hmem)
          rw [hget] at hpend
          exact hst (Option.some_inj.mp hpend)
        · rw [cancelAll_get?_not_mem _ _ _ hmem]
          exact hget
    | drainPrim hph =>
        show (cancelAll s.tasks s.primQ).get? i = some st
        by_cases hmem : i ∈ s.primQ
        · exfalso
          have hpend := (hinv.pendingIff i hlt).mpr (Or.inr (Or.inl hmem))
          rw [hget] at hpend
          exact hst (Option.some_inj.mp hpend)
        · rw [cancelAll_get?_not_mem _ _ _ hmem]
          exact hget

/-- The concrete lifecycle trace behind the witness: one priority task is
pushed and runs; one primary task is pushed and is canceled by the drain
of Stop. -/
theorem reach_sStoppedW : Reach sStoppedW := by
  have h0 : Reach init := Reach.init
  have h1 : Reach
      { priQ := [0], primQ := [], tasks := [TStatus.pending],
        running := none, obs := [], phase := Phase.run } :=
    h0.step (LStep.pushPri init rfl)
  have h2 : Reach
      { priQ := [0], primQ := [1],
        tasks := [TStatus.pending, TStatus.pending],
        running := none, obs := [], phase := Phase.run } :=
    h1.step (LStep.pushPrim _ rfl)
  have h3 : Reach
      { priQ := [], primQ := [1],
        tasks := [TStatus.pending, TStatus.pending],
        running := some 0, obs := [0], phase := Phase.run } :=
    h2.step (LStep.startPri _ 0 [] rfl (Or.inl rfl) rfl)
  have h4 : Reach
      { priQ := [], primQ := [1],
        tasks := [TStatus.ran, TStatus.pending],
        running := none, obs := [0], phase := Phase.run } :=
    h3.step (LStep.runEnd _ 0 rfl)
  have h5 : Reach
      { priQ := [], primQ := [1],
        tasks := [TStatus.ran, TStatus.pending],
        running := none, obs := [0], phase := Phase.stop1 } :=
    h4.step (LStep.stopBegin _ rfl)
  have h6 : Reach
      { priQ := [], primQ := [1],
        tasks := [TStatus.ran, TStatus.pending],
        running := none, obs := [0], phase := Phase.stop2 } :=
    h5.step (LStep.consumerExit _ rfl rfl)
  have h7 : Reach
      { priQ := [], primQ := [1],
        tasks := [TStatus.ran, TStatus.pending],
        running := none, obs := [0], phase := Phase.stop3 } :=
    h6.step (LStep.drainPri _ rfl)
  exact h7.step (LStep.drainPrim _ rfl)

/-- Witness for c4_at_most_once: after the concrete stop, the executed
task ran exactly once and the undispatched one was canceled, never run. -/
theorem c4_at_most_once_witness :
    Reach sStoppedW ∧
    (∀ i st, sStoppedW.tasks.get? i = some st →
      st = TStatus.ran ∨ st = TStatus.canceledHC) ∧
    sStoppedW.obs.count 0 = 1 ∧ sStoppedW.obs.count 1 = 0 := by
  refine ⟨reach_sStoppedW, ?_, ?_, ?_⟩
  · exact (c4_at_most_once sStoppedW reach_sStoppedW).1 rfl
  · exact (c4_at_most_once sStoppedW reach_sStoppedW).2.1 0 rfl
  · exact (c4_at_most_once sStoppedW reach_sStoppedW).2.2.1 1 rfl

end ReactorLife

namespace SchedM

theorem sinv_init : SInv init := by
  constructor <;> simp [init]

theorem sinv_step {s s' : SState} (h : SInv s) (hs : SStep s s') :
    SInv s' := by
  cases hs with
  | start hph =>
      refine ⟨h.aband, h.dod, h.delayPure, h.enqReg, h.runReg, ?_⟩
      intro hfin
      exact Phase.noConfusion hfin
  | pushNow hph =>
      constructor
      · intro e' he'
        rcases List.mem_append.mp he' with hm | hm
        · exact h.aband e' hm
        · have hx : e' = entNow := by simpa using hm
          rw [hx]
          exact ⟨by decide, by decide⟩
      · intro e' he'
        rcases List.mem_append.mp he' with hm | hm
        · exact h.dod e' hm
        · have hx : e' = entNow := by simpa using hm
          rw [hx]
          decide
      · intro e' he' hd'
        rcases List.mem_append.mp he' with hm | hm
        · exact h.delayPure e' hm hd'
        · have hx : e' = entNow := by simpa using hm
          rw [hx] at hd'
          exact Bool.noConfusion hd'
      · intro e' he' hq'
        rcases List.mem_append.mp he' with hm | hm
        · exact h.enqReg e' hm hq'
        · have hx : e' = entNow := by simpa using hm
          rw [hx]
          rfl
      · intro e' he' hst'
        rcases List.mem_append.mp he' with hm | hm
        · exact h.runReg e' hm hst'
        · have hx : e' = entNow := by simpa using hm
          rw [hx]
          rfl
      · intro hfin
        exact absurd (show s.phase = Phase.stopFin from hfin)
          (by rw [hph]; simp)
  | pushDelay hph =>
      constructor
      · intro e' he'
        rcases List.mem_append.mp he' with hm | hm
        · exact h.aband e' hm
        · have hx : e' = entDelay := by simpa using hm
          rw [hx]
          exact ⟨by decide, by decide⟩
      · intro e' he'
        rcases List.mem_append.mp he' with hm | hm
        · exact h.dod e' hm
        · have hx : e' = entDelay := by simpa using hm
          rw [hx]
          decide
      · intro e' he' hd'
        rcases List.mem_append.mp he' with hm | hm
        · exact h.delayPure e' hm hd'
        · have hx : e' = entDelay := by simpa using hm
          rw [hx]
          decide
      · intro e' he' hq'
        rcases List.mem_append.mp he' with hm | hm
        · exact h.enqReg e' hm hq'
        · have hx : e' = entDelay := by simpa using hm
          rw [hx] at hq'
          exact Bool.noConfusion hq'
      · intro e' he' hst'
        rcases List.mem_append.mp he' with hm | hm
        · exact h.runReg e' hm hst'
        · have hx : e' = entDelay := by simpa using hm
          rw [hx] at hst'
          rcases hst' with h1 | h1 <;> exact EStatus.noConfusion h1
      · intro hfin
        exact absurd (show s.phase = Phase.stopFin from hfin)
          (by rw [hph]; simp)
  | delayExpire i e hph hget hd =>
      have hem : e ∈ s.ents := List.get?_mem hget
      have hpure := h.delayPure e hem hd
      constructor
      · intro e' he'
        rcases List.mem_or_eq_of_mem_set he' with hm | hm
        · exact h.aband e' hm
        · subst hm
          exact h.aband e hem
      · intro e' he'
        rcases List.mem_or_eq_of_mem_set he' with hm | hm
        · exact h.dod e' hm
        · subst hm
          exact h.dod e hem
      · intro e' he' hd'
        rcases List.mem_or_eq_of_mem_set he' with hm | hm
        · exact h.delayPure e' hm hd'
        · subst hm
          exact Bool.noConfusion hd'
      · intro e' he' hq'
        rcases List.mem_or_eq_of_mem_set he' with hm | hm
        · exact h.enqReg e' hm hq'
        · subst hm
          rfl
      · intro e' he' hst'
        rcases List.mem_or_eq_of_mem_set he' with hm | hm
        · exact h.runReg e' hm hst'
        · subst hm
          rfl
      · intro hfin
        have hfin2 : s.phase = Phase.stopFin := hfin
        rcases hph with hp | hp <;> rw [hp] at hfin2 <;>
          exact Phase.noConfusion hfin2
  | pickup i e hph hget hq hw =>
      have hem : e ∈ s.ents := List.get?_mem hget
      have ha := h.aband e hem
      have hdo := h.dod e hem
      constructor
      · intro e' he'
        rcases List.mem_or_eq_of_mem_set he' with hm | hm
        · exact h.aband e' hm
        · subst hm
          refine ⟨ha.1, ⟨fun h1 => ?_, fun h1 => ?_⟩⟩
          · have h2 := ha.2.mp h1
            rw [hw] at h2
            exact EStatus.noConfusion h2
          · exact EStatus.noConfusion h1
      · intro e' he'
        rcases List.mem_or_eq_of_mem_set he' with hm | hm
        · exact h.dod e' hm
        · subst hm
          constructor
          · intro h1
            rcases hdo.mp h1 with h2 | h2 <;> rw [hw] at h2 <;>
              exact EStatus.noConfusion h2
          · intro h1
            rcases h1 with h1 | h1 <;> exact EStatus.noConfusion h1
      · intro e' he' hd'
        rcases List.mem_or_eq_of_mem_set he' with hm | hm
        · exact h.delayPure e' hm hd'
        · subst hm
          have hco := (h.delayPure e hem hd').2.2.1
          rw [hq] at hco
          exact Bool.noConfusion hco
      · intro e' he' hq'
        rcases List.mem_or_eq_of_mem_set he' with hm | hm
        · exact h.enqReg e' hm hq'
        · subst hm
          exact Bool.noConfusion hq'
      · intro e' he' hst'
        rcases List.mem_or_eq_of_mem_set he' with hm | hm
        · exact h.runReg e' hm hst'
        · subst hm
          exact h.enqReg e hem hq
      · intro hfin
        have hfin2 : s.phase = Phase.stopFin := hfin
        rw [hfin2] at hph
        exact absurd hph (by decide)
  | pickupSkip i e hph hget hq hw =>
      have hem : e ∈ s.ents := List.get?_mem hget
      constructor
      · intro e' he'
        rcases List.mem_or_eq_of_mem_set he' with hm | hm
        · exact h.aband e' hm
        · subst hm
          exact h.aband e hem
      · intro e' he'
        rcases List.mem_or_eq_of_mem_set he' with hm | hm
        · exact h.dod e' hm
        · subst hm
          exact h.dod e hem
      · intro e' he' hd'
        rcases List.mem_or_eq_of_mem_set he' with hm | hm
        · exact h.delayPure e' hm hd'
        · subst hm
          have hco := (h.delayPure e hem hd').2.2.1
          rw [hq] at hco
          exact Bool.noConfusion hco
      · intro e' he' hq'
        rcases List.mem_or_eq_of_mem_set he' with hm | hm
        · exact h.enqReg e' hm hq'
        · subst hm
          exact Bool.noConfusion hq'
      · intro e' he' hst'
        rcases List.mem_or_eq_of_mem_set he' with hm | hm
        · exact h.runReg e' hm hst'
        · subst hm
          exact h.runReg e hem hst'
      · intro hfin
        have hfin2 : s.phase = Phase.stopFin := hfin
        rw [hfin2] at hph
        exact absurd hph (by decide)
  | doReturn i e hget hst =>
      have hem : e ∈ s.ents := List.get?_mem hget
      have ha := h.aband e hem
      constructor
      · intro e' he'
        rcases List.mem_or_eq_of_mem_set he' with hm | hm
        · exact h.aband e' hm
        · subst hm
          refine ⟨ha.1, ⟨fun h1 => ?_, fun h1 => ?_⟩⟩
          · have h2 := ha.2.mp h1
            rcases hst with h3 | h3 <;> rw [h3] at h2 <;>
              exact EStatus.noConfusion h2
          · exfalso
            by_cases hc : e.status = EStatus.canceling ∨
              wmCancelled s.phase = true
            · rw [if_pos hc] at h1
              exact EStatus.noConfusion h1
            · rw [if_neg hc] at h1
              exact EStatus.noConfusion h1
      · intro e' he'
        rcases List.mem_or_eq_of_mem_set he' with hm | hm
        · exact h.dod e' hm
        · subst hm
          constructor
          · intro _
            by_cases hc : e.status = EStatus.canceling ∨
              wmCancelled s.phase = true
            · rw [if_pos hc]
              exact Or.inr rfl
            · rw [if_neg hc]
              exact Or.inl rfl
          · intro _
            rfl
      · intro e' he' hd'
        rcases List.mem_or_eq_of_mem_set he' with hm | hm
        · exact h.delayPure e' hm hd'
        · subst hm
          have hco := (h.delayPure e hem hd').1
          rcases hst with h1 | h1 <;> rw [h1] at hco <;>
            exact EStatus.noConfusion hco
      · intro e' he' hq'
        rcases List.mem_or_eq_of_mem_set he' with hm | hm
        · exact h.enqReg e' hm hq'
        · subst hm
          exact h.enqReg e hem hq'
      · intro e' he' hst'
        rcases List.mem_or_eq_of_mem_set he' with hm | hm
        · exact h.runReg e' hm hst'
        · subst hm
          exfalso
          by_cases hc : e.status = EStatus.canceling ∨
            wmCancelled s.phase = true
          · rw [if_pos hc] at hst'
            rcases hst' with h1 | h1 <;> exact EStatus.noConfusion h1
          · rw [if_neg hc] at hst'
            rcases hst' with h1 | h1 <;> exact EStatus.noConfusion h1
      · intro hfin e' he'
        have hfin2 : s.phase = Phase.stopFin := hfin
        have hreg := h.runReg e hem hst
        have hterm := h.finTerm hfin2 e hem hreg
        rcases hst with h1 | h1 <;> rw [h1] at hterm <;>
          exact absurd hterm (by decide)
  | stopBegin hph =>
      refine ⟨h.aband, h.dod, h.delayPure, h.enqReg, h.runReg, ?_⟩
      intro hfin
      exact Phase.noConfusion hfin
  | delayShut hph =>
      refine ⟨h.aband, h.dod, h.delayPure, h.enqReg, h.runReg, ?_⟩
      intro hfin
      exact Phase.noConfusion hfin
  | wmCancel hph =>
      refine ⟨h.aband, h.dod, h.delayPure, h.enqReg, h.runReg, ?_⟩
      intro hfin
      exact Phase.noConfusion hfin
  | wmDrained hph hall =>
      refine ⟨h.aband, h.dod, h.delayPure, h.enqReg, h.runReg, ?_⟩
      intro hfin
      exact Phase.noConfusion hfin
  | stopCancel i e hph hget hreg hw =>
      have hem : e ∈ s.ents := List.get?_mem hget
      have ha := h.aband e hem
      have hdo := h.dod e hem
      have hc0 : e.abandonCnt = 0 := by
        by_cases hcnt : e.abandonCnt = 1
        · have h2 := ha.2.mp hcnt
          rw [hw] at h2
          exact absurd h2 (by decide)
        · have := ha.1
          omega
      constructor
      · intro e' he'
        rcases List.mem_or_eq_of_mem_set he' with hm | hm
        · exact h.aband e' hm
        · subst hm
          refine ⟨by simp [hc0], ⟨fun _ => rfl, fun _ => by simp [hc0]⟩⟩
      · intro e' he'
        rcases List.mem_or_eq_of_mem_set he' with hm | hm
        · exact h.dod e' hm
        · subst hm
          constructor
          · intro h1
            rcases hdo.mp h1 with h2 | h2 <;> rw [hw] at h2 <;>
              exact EStatus.noConfusion h2
          · intro h1
            rcases h1 with h1 | h1 <;> exact EStatus.noConfusion h1
      · intro e' he' hd'
        rcases List.mem_or_eq_of_mem_set he' with hm | hm
        · exact h.delayPure e' hm hd'
        · subst hm
          have hco := (h.delayPure e hem hd').2.1
          rw [hreg] at hco
          exact Bool.noConfusion hco
      · intro e' he' hq'
        rcases List.mem_or_eq_of_mem_set he' with hm | hm
        · exact h.enqReg e' hm hq'
        · subst hm
          exact hreg
      · intro e' he' hst'
        rcases List.mem_or_eq_of_mem_set he' with hm | hm
        · exact h.runReg e' hm hst'
        · subst hm
          rcases hst' with h1 | h1 <;> exact EStatus.noConfusion h1
      · intro hfin
        have hfin2 : s.phase = Phase.stopFin := hfin
        rw [hph] at hfin2
        exact Phase.noConfusion hfin2
  | stopFinish hph hterm =>
      refine ⟨h.aband, h.dod, h.delayPure, h.enqReg, h.runReg, ?_⟩
      intro _ e' he' hr
      exact hterm e' he' hr

theorem sreach_inv {s : SState} (h : Reach s) : SInv s := by
  induction h with
  | init => exact sinv_init
  | step _ hs ih => exact sinv_step ih hs

end SchedM

namespace SchedM

/-- Claim C1 (amended): after Stop() has returned, every pushed entity
that was dispatched to scheduling — registered in the scheduler's element
registry, which is every accepted entity except those still pending in
the delay manager — is in a terminal state, its Done() signal has fired,
and exactly one of the following happened: its executor's Do ran and
returned, or its executor's Abandon was called exactly once.  Entities
still pending in the delay manager are not covered: they stay Waiting
(see the counterexample and claim C10). -/
theorem c1_amended (s : SState) (h : Reach s)
    (hfin : s.phase = Phase.stopFin) :
    ∀ e ∈ s.ents, e.registered = true →
      terminalSt e.status = true ∧ doneSignalFired e = true ∧
      ((e.doDone = true ∧ e.abandonCnt = 0) ∨
        (e.doDone = false ∧ e.abandonCnt = 1)) := by
  have hinv := sreach_inv h
  intro e he hreg
  have hterm := hinv.finTerm hfin e he hreg
  refine ⟨hterm, hterm, ?_⟩
  have ha := hinv.aband e he
  have hd := hinv.dod e he
  have hterm2 : (e.status = EStatus.done ∨ e.status = EStatus.canceled) ∨
      e.status = EStatus.aborted := by
    unfold terminalSt at hterm
    simpa using hterm
  rcases hterm2 with (h1 | h1) | h1
  · refine Or.inl ⟨hd.mpr (Or.inl h1), ?_⟩
    by_cases hcnt : e.abandonCnt = 1
    · have h2 := ha.2.mp hcnt
      rw [h1] at h2
      exact absurd h2 (by decide)
    · have := ha.1
      omega
  · refine Or.inr ⟨?_, ha.2.mpr h1⟩
    by_cases hdd : e.doDone = true
    · rcases hd.mp hdd with h2 | h2 <;> rw [h1] at h2 <;>
        exact absurd h2 (by decide)
    · exact Bool.eq_false_iff.mpr hdd
  · refine Or.inl ⟨hd.mpr (Or.inr h1), ?_⟩
    by_cases hcnt : e.abandonCnt = 1
    · have h2 := ha.2.mp hcnt
      rw [h1] at h2
      exact absurd h2 (by decide)
    · have := ha.1
      omega

/-- The concrete trace behind the C1 counterexample and the C10 witness:
one entity with a nonzero delay is pushed, its delay never expires, and
Stop runs to completion without touching it. -/
theorem reach_sDroppedDelay : Reach sDroppedDelay := by
  have h1 : Reach { ents := [], phase := Phase.run } :=
    Reach.step Reach.init (SStep.start _ rfl)
  have h2 : Reach { ents := [entDelay], phase := Phase.run } :=
    h1.step (SStep.pushDelay _ rfl)
  have h3 : Reach { ents := [entDelay], phase := Phase.s1 } :=
    h2.step (SStep.stopBegin _ rfl)
  have h4 : Reach { ents := [entDelay], phase := Phase.s2 } :=
    h3.step (SStep.delayShut _ rfl)
  have h5 : Reach { ents := [entDelay], phase := Phase.s2b } :=
    h4.step (SStep.wmCancel _ rfl)
  have h6 : Reach { ents := [entDelay], phase := Phase.s3 } :=
    h5.step (SStep.wmDrained _ rfl (by decide))
  exact h6.step (SStep.stopFinish _ rfl (by decide))

/-- Claim C1 counterexample: Stop() completes on a scheduler holding one
entity pushed with a nonzero, unexpired delay; after Stop the entity is
still Waiting (not terminal), its Done() has not fired, Abandon was never
called and Do never ran — refuting the claim for every pushed entity. -/
theorem c1_counterexample :
    Reach sDroppedDelay ∧ sDroppedDelay.phase = Phase.stopFin ∧
    sDroppedDelay.ents.get? 0 = some entDelay ∧
    terminalSt entDelay.status = false ∧
    doneSignalFired entDelay = false ∧
    entDelay.abandonCnt = 0 ∧ entDelay.doDone = false :=
  ⟨reach_sDroppedDelay, rfl, rfl, by decide, by decide, by decide, by decide⟩

/-- Witness for c1_amended: the concrete graceful-stop state with one
executed and one canceled registered entity. -/
theorem c1_amended_witness :
    Reach sStoppedW ∧ sStoppedW.phase = Phase.stopFin ∧
    (∀ e ∈ sStoppedW.ents, e.registered = true →
      terminalSt e.status = true ∧ doneSignalFired e = true ∧
      ((e.doDone = true ∧ e.abandonCnt = 0) ∨
        (e.doDone = false ∧ e.abandonCnt = 1))) := by
  have h1 : Reach { ents := [], phase := Phase.run } :=
    Reach.step Reach.init (SStep.start _ rfl)
  have h2 : Reach { ents := [entNow], phase := Phase.run } :=
    h1.step (SStep.pushNow _ rfl)
  have h3 : Reach { ents := [entNow, entNow], phase := Phase.run } :=
    h2.step (SStep.pushNow _ rfl)
  have h4 : Reach { ents := [entRun, entNow], phase := Phase.run } :=
    h3.step (SStep.pickup _ 0 entNow rfl rfl rfl rfl)
  have h5 : Reach { ents := [entDone, entNow], phase := Phase.run } :=
    h4.step (SStep.doReturn _ 0 entRun rfl (Or.inl rfl))
  have h6 : Reach { ents := [entDone, entNow], phase := Phase.s1 } :=
    h5.step (SStep.stopBegin _ rfl)
  have h7 : Reach { ents := [entDone, entNow], phase := Phase.s2 } :=
    h6.step (SStep.delayShut _ rfl)
  have h8 : Reach { ents := [entDone, entNow], phase := Phase.s2b } :=
    h7.step (SStep.wmCancel _ rfl)
  have h9 : Reach { ents := [entDone, entNow], phase := Phase.s3 } :=
    h8.step (SStep.wmDrained _ rfl (by decide))
  have h10 : Reach { ents := [entDone, entCan], phase := Phase.s3 } :=
    h9.step (SStep.stopCancel _ 1 entNow rfl rfl rfl rfl)
  have h11 : Reach sStoppedW :=
    h10.step (SStep.stopFinish _ rfl (by decide))
  exact ⟨h11, rfl, c1_amended sStoppedW h11 rfl⟩

/-- Claim C10: an entity pushed with a nonzero delay whose delay has not
expired is still pending in the delay manager: it was never added to the
scheduler's entity registry, its status is still Waiting, its executor's
Abandon was never called and its Done() channel has not fired — at every
reachable state, including after Stop() has returned. -/
theorem c10_delay_pending_untouched (s : SState) (h : Reach s) :
    ∀ e ∈ s.ents, e.inDelayMgr = true →
      e.registered = false ∧ e.status = EStatus.waiting ∧
      e.abandonCnt = 0 ∧ e.doDone = false ∧ doneSignalFired e = false := by
  have hinv := sreach_inv h
  intro e he hd
  obtain ⟨hw, hr, _, hc, hdd⟩ := hinv.delayPure e he hd
  refine ⟨hr, hw, hc, hdd, ?_⟩
  unfold doneSignalFired terminalSt
  rw [hw]
  decide

/-- Witness for c10_delay_pending_untouched at the state reached after a
full Stop with the delayed entity still pending. -/
theorem c10_delay_pending_untouched_witness :
    Reach sDroppedDelay ∧ sDroppedDelay.phase = Phase.stopFin ∧
    (entDelay.registered = false ∧ entDelay.status = EStatus.waiting ∧
      entDelay.abandonCnt = 0 ∧ entDelay.doDone = false ∧
      doneSignalFired entDelay = false) :=
  ⟨reach_sDroppedDelay, rfl,
    c10_delay_pending_untouched sDroppedDelay reach_sDroppedDelay
      entDelay (by simp [sDroppedDelay]) rfl⟩

end SchedM
